import Mathlib

/-!
Verification of the treechat tree/state-synchronization engine.

This file gives a shallow embedding of the tree logic of
src/contents/overlay.tsx and of the message-pairing logic of
src/contents/pageinfo.ts, and proves the specification claims about them.

Modelling conventions:
- A JS object used as a string-keyed record is an association list
  (List (String × α)); object spread update is in-place replacement
  (or append for a fresh key), matching JS key-order semantics, and
  JS `delete` is a key filter.
- JS while-loops guarded by a visited set are encoded with an explicit
  fuel argument.  Every such loop visits a fresh key of the node table
  per iteration (tracked by the guard set), so fuel `st.nodes.length + 2`
  makes the encoding extensionally equal to the JS loop on all states.
  The two unguarded DFS recursions (flatten, collectSubtreeIds) get fuel
  `st.nodes.length + 1`, which covers every state satisfying the tree
  invariants; on a state with a children-cycle the JS code would overflow
  the stack, which the fuel cutoff stands in for.
- The template-literal rendering of a natural number is modelled by an
  explicit base-10 rendering function natToStr.
- Strings are Lean strings (lists of characters); .slice/.length count
  characters.
- JSON.stringify/JSON.parse are modelled at the JSON value level by an
  explicit Json type with an encoder and a decoder; the string layer of
  the serialization is external to the program logic.
-/

/-! # Definitions -/

/-! ## Association lists modelling JS objects -/

/-- First-match lookup in an association list, modelling JS property read. -/
def lookupA {α : Type} : List (String × α) → String → Option α
  | [], _ => none
  | (k, v) :: rest, key => if k = key then some v else lookupA rest key

/-- JS object spread update: replace the value at the key in place, or append a
    binding for a fresh key.  A JS object never holds a duplicate key, so
    first-occurrence replacement is exact for every map produced by the code. -/
def insertJS {α : Type} : List (String × α) → String → α → List (String × α)
  | [], k, v => [(k, v)]
  | (k1, v1) :: rest, k, v =>
    if k1 = k then (k, v) :: rest else (k1, v1) :: insertJS rest k v

/-! ## Base-10 rendering of naturals (JS template literal on a number) -/

/-- One decimal digit character. -/
def digitCh (d : Nat) : Char := Char.ofNat (48 + d)

/-- Fuelled base-10 digit list; fuel n+1 always suffices for n. -/
def natDigitsAux : Nat → Nat → List Char
  | 0, _ => []
  | f + 1, n => if n < 10 then [digitCh n] else natDigitsAux f (n / 10) ++ [digitCh (n % 10)]

/-- Decimal rendering of a natural number, as produced by a JS template literal. -/
def natToStr (n : Nat) : String := String.mk (natDigitsAux (n + 1) n)

/-! ## Data model (src/contents/overlay.tsx, types) -/

/-- One (user, assistant) exchange as observed on the page. -/
structure Pair where
  userText : String
  assistantText : String
  userHtml : String
  assistantHtml : String
  deriving Repr, DecidableEq

/-- A node of the turn tree. -/
structure TreeNode where
  id : String
  parentId : String
  children : List String
  depth : Nat
  linearIndex : Int
  summary : String
  userHtml : String
  assistantHtml : String
  deriving Repr, DecidableEq

/-- The per-conversation tree state.  Records are association lists. -/
structure TreeState where
  convoKey : String
  seenLinearCount : Nat
  activeId : String
  nodes : List (String × TreeNode)
  collapsedIds : List (String × Bool)
  deriving Repr, DecidableEq

abbrev NodeMap := List (String × TreeNode)

def ROOT_ID : String := "root"

/-- Truthiness of a JS record read returning possibly-undefined booleans. -/
def truthy (o : Option Bool) : Bool := o.getD false

/-- The synthetic root node created by freshTree and by the aligner. -/
def rootNode : TreeNode :=
  { id := ROOT_ID, parentId := ROOT_ID, children := [], depth := 0,
    linearIndex := -1, summary := "Root", userHtml := "", assistantHtml := "" }

/-- Source: freshTree. -/
def freshTree (key : String) : TreeState :=
  { convoKey := key, seenLinearCount := 0, activeId := ROOT_ID,
    collapsedIds := [], nodes := [(ROOT_ID, rootNode)] }

/-! ## Text utilities (cleanText / makeSummaryFromUserText) -/

/-- Characters matched by the JS whitespace class in the inputs at hand. -/
def jsIsSpace (c : Char) : Bool :=
  c = ' ' || c = '\t' || c = '\n' || c = '\r' ||
    c = Char.ofNat 11 || c = Char.ofNat 12 || c = Char.ofNat 160

/-- State machine for .replace of every whitespace run by a single space;
    the flag records whether the previous character was part of a run. -/
def replaceWsRuns : Bool → List Char → List Char
  | _, [] => []
  | inSpace, c :: rest =>
    if jsIsSpace c then
      (if inSpace then [] else [' ']) ++ replaceWsRuns true rest
    else
      c :: replaceWsRuns false rest

/-- JS String.prototype.trim on both ends. -/
def trimWs (l : List Char) : List Char :=
  ((l.dropWhile jsIsSpace).reverse.dropWhile jsIsSpace).reverse

/-- The normalization (userText or empty).replace(whitespace-runs, one space).trim(). -/
def normalizeWs (s : String) : String := String.mk (trimWs (replaceWsRuns false s.data))

/-- Source: makeSummaryFromUserText (identical in overlay.tsx and pageinfo.ts). -/
def makeSummaryFromUserText (userText : String) (max : Nat) : String :=
  let t := normalizeWs userText
  if t = "" then "(empty)"
  else if t.length ≤ max then t
  else String.mk (t.data.take max) ++ "…"

/-! ## Message extraction pairing (pairMessages, overlay.tsx lines 187-207) -/

inductive Role where
  | user
  | assistant
  deriving Repr, DecidableEq

/-- A role-tagged message, as produced by extractMessages. -/
structure Msg where
  role : Role
  text : String
  html : String
  deriving Repr, DecidableEq

/-- The loop body of pairMessages: pending holds the last unconsumed user turn. -/
def pairMessagesAux : Option Msg → List Msg → List Pair
  | _, [] => []
  | pending, m :: rest =>
    match m.role with
    | Role.user => pairMessagesAux (some m) rest
    | Role.assistant =>
      match pending with
      | some u =>
        { userText := u.text, assistantText := m.text,
          userHtml := u.html, assistantHtml := m.html } :: pairMessagesAux none rest
      | none => pairMessagesAux none rest

/-- Source: pairMessages. -/
def pairMessages (msgs : List Msg) : List Pair := pairMessagesAux none msgs

/-! ## pageinfo.ts: pairToLinearNodes (lines 106-138) -/

/-- pageinfo.ts message shape (carries a page index). -/
structure MsgP where
  role : Role
  text : String
  html : String
  idx : Nat
  deriving Repr, DecidableEq

/-- pageinfo.ts LinearNode. -/
structure LinearNode where
  id : String
  userText : String
  userHtml : String
  assistantText : String
  assistantHtml : String
  summary : String
  linearIndex : Nat
  deriving Repr, DecidableEq

/-- The loop of pairToLinearNodes: pending user plus a running linear index. -/
def pairToLinearNodesAux : Option MsgP → Nat → List MsgP → List LinearNode
  | _, _, [] => []
  | pending, linearIndex, m :: rest =>
    match m.role with
    | Role.user => pairToLinearNodesAux (some m) linearIndex rest
    | Role.assistant =>
      match pending with
      | some u =>
        { id := "lin_" ++ natToStr linearIndex,
          userText := u.text, userHtml := u.html,
          assistantText := m.text, assistantHtml := m.html,
          summary := makeSummaryFromUserText u.text 20,
          linearIndex := linearIndex } :: pairToLinearNodesAux none (linearIndex + 1) rest
      | none => pairToLinearNodesAux none linearIndex rest

/-- Source: pairToLinearNodes. -/
def pairToLinearNodes (messages : List MsgP) : List LinearNode :=
  pairToLinearNodesAux none 0 messages

/-! ## Tree logic (overlay.tsx) -/

/-- Default pair used only to totalize in-range list indexing. -/
def dfltPair : Pair := { userText := "", assistantText := "", userHtml := "", assistantHtml := "" }

/-- Node id generated by appendUnderActive: the linear index plus a random
    disambiguator rendered by Math.random. -/
def mkNodeId (idx : Nat) (rnd : String) : String :=
  "n_" ++ natToStr idx ++ "_" ++ rnd

/-- The parent resolution of appendUnderActive: st.nodes at activeId, with the
    root as fallback.  (If the root were also absent the JS code would throw;
    the rootNode placeholder is unreachable in any state that has a root.) -/
def resolveAppendParent (st : TreeState) : TreeNode :=
  match lookupA st.nodes st.activeId with
  | some p => p
  | none => (lookupA st.nodes ROOT_ID).getD rootNode

/-- Source: appendUnderActive (lines 232-257); rnd stands for the string
    produced by Math.random().toString(16).slice(2). -/
def appendUnderActive (st : TreeState) (pair : Pair) (idx : Nat) (rnd : String) : TreeState :=
  let parent := resolveAppendParent st
  let id := mkNodeId idx rnd
  let node : TreeNode :=
    { id := id, parentId := parent.id, children := [], depth := parent.depth + 1,
      linearIndex := (idx : Int), summary := makeSummaryFromUserText pair.userText 20,
      userHtml := pair.userHtml, assistantHtml := pair.assistantHtml }
  { st with
    activeId := id,
    seenLinearCount := idx + 1,
    nodes := insertJS (insertJS st.nodes id node) parent.id
      { parent with children := parent.children ++ [id] } }

/-- State effect of refresh (lines 658-694): when the extractor reports more
    pairs than seenLinearCount, fold every unseen pair under the active node;
    otherwise the state is left unchanged (the retry path re-runs the same
    loop later).  rnds i is the random disambiguator drawn at index i. -/
def reconcile (rnds : Nat → String) (st : TreeState) (pairs : List Pair) : TreeState :=
  if pairs.length ≤ st.seenLinearCount then st
  else
    (List.range' st.seenLinearCount (pairs.length - st.seenLinearCount)).foldl
      (fun s i => appendUnderActive s (pairs.getD i dfltPair) i (rnds i)) st

/-- The reconcile fold starting at index b for k steps (proof-side alias for
    the loop body of refresh). -/
def reconcileFoldFrom (rnds : Nat → String) (pairs : List Pair) (st : TreeState)
    (b k : Nat) : TreeState :=
  (List.range' b k).foldl (fun s i => appendUnderActive s (pairs.getD i dfltPair) i (rnds i)) st

/-- The node the reconcile loop is expected to store for linear index i, when
    appending indices b..len-1 under the resolved parent parent0. -/
def chainNodeSpec (rnds : Nat → String) (pairs : List Pair) (b : Nat) (parent0 : TreeNode)
    (i len : Nat) : TreeNode :=
  { id := mkNodeId i (rnds i),
    parentId := if i = b then parent0.id else mkNodeId (i - 1) (rnds (i - 1)),
    children := if i = len - 1 then [] else [mkNodeId (i + 1) (rnds (i + 1))],
    depth := parent0.depth + (i - b) + 1,
    linearIndex := (i : Int),
    summary := makeSummaryFromUserText (pairs.getD i dfltPair).userText 20,
    userHtml := (pairs.getD i dfltPair).userHtml,
    assistantHtml := (pairs.getD i dfltPair).assistantHtml }

/-- Source: the while loop of pathToRoot (lines 259-272), with the cycle
    guard explicit and fuel covering every reachable iteration count. -/
def pathToRootAux (st : TreeState) : Nat → List String → String → List TreeNode
  | 0, _, _ => []
  | f + 1, guard, curId =>
    if curId = "" ∨ curId = ROOT_ID ∨ curId ∈ guard then []
    else
      match lookupA st.nodes curId with
      | none => []
      | some cur => cur :: pathToRootAux st f (curId :: guard) cur.parentId

/-- Source: pathToRoot. -/
def pathToRoot (st : TreeState) : List TreeNode :=
  (pathToRootAux st (st.nodes.length + 2) [] st.activeId).reverse

/-- Source: the dfs of flattenTree (lines 274-284). -/
def flattenAux (st : TreeState) : Nat → String → List TreeNode
  | 0, _ => []
  | f + 1, id =>
    match lookupA st.nodes id with
    | none => []
    | some n =>
      (if id = ROOT_ID then [] else [n]) ++ (n.children.map (flattenAux st f)).flatten

/-- Source: flattenTree. -/
def flattenTree (st : TreeState) : List TreeNode :=
  flattenAux st (st.nodes.length + 1) ROOT_ID

/-- Deterministic id of the aligner node for pair index i. -/
def alignId (i : Nat) : String := "n_align_" ++ natToStr i

/-- One iteration of the aligner loop: acc carries the node record built so
    far and the id of the previous chain node. -/
def alignStep (pairs : List Pair) (acc : NodeMap × String) (i : Nat) : NodeMap × String :=
  let nodes := acc.1
  let parentId := acc.2
  let id := alignId i
  let parent := lookupA nodes parentId
  let node : TreeNode :=
    { id := id, parentId := parentId, children := [],
      depth := (parent.map (fun p => p.depth)).getD 0 + 1,
      linearIndex := (i : Int),
      summary := makeSummaryFromUserText (((pairs.get? i).map (fun p => p.userText)).getD "") 20,
      userHtml := "", assistantHtml := "" }
  let nodes1 := insertJS nodes id node
  let nodes2 :=
    match lookupA nodes1 parentId with
    | some p => insertJS nodes1 parentId { p with children := p.children ++ [id] }
    | none => nodes1
  (nodes2, id)

/-- Source: buildAlignedLinearTreeFromPairs (lines 288-329). -/
def buildAlignedLinearTreeFromPairs (convoKey : String) (pairs : List Pair) : TreeState :=
  let built := (List.range pairs.length).foldl (alignStep pairs) ([(ROOT_ID, rootNode)], ROOT_ID)
  { convoKey := convoKey,
    seenLinearCount := pairs.length,
    activeId := if 0 < pairs.length then alignId (pairs.length - 1) else ROOT_ID,
    nodes := built.1,
    collapsedIds := [] }

/-- The node the aligner is expected to store for pair index i out of k. -/
def alignNodeSpec (pairs : List Pair) (i k : Nat) : TreeNode :=
  { id := alignId i,
    parentId := if i = 0 then ROOT_ID else alignId (i - 1),
    children := if i = k - 1 then [] else [alignId (i + 1)],
    depth := i + 1,
    linearIndex := (i : Int),
    summary := makeSummaryFromUserText (((pairs.get? i).map (fun p => p.userText)).getD "") 20,
    userHtml := "", assistantHtml := "" }

/-- Source: the while loop of isHiddenByCollapsed (lines 338-350). -/
def isHiddenAux (st : TreeState) : Nat → List String → String → Bool
  | 0, _, _ => false
  | f + 1, guard, curId =>
    if curId = "" ∨ curId = ROOT_ID ∨ curId ∈ guard then false
    else
      match lookupA st.nodes curId with
      | none => false
      | some cur =>
        if cur.parentId ≠ "" ∧ truthy (lookupA st.collapsedIds cur.parentId) = true then true
        else isHiddenAux st f (curId :: guard) cur.parentId

/-- Source: isHiddenByCollapsed. -/
def isHiddenByCollapsed (st : TreeState) (nodeId : String) : Bool :=
  isHiddenAux st (st.nodes.length + 2) [] nodeId

/-- Source: the dfs of collectSubtreeIds (lines 354-364). -/
def collectSubtreeAux (st : TreeState) : Nat → String → List String
  | 0, _ => []
  | f + 1, id =>
    match lookupA st.nodes id with
    | none => []
    | some n => id :: (n.children.map (collectSubtreeAux st f)).flatten

/-- Source: collectSubtreeIds. -/
def collectSubtreeIds (st : TreeState) (rootId : String) : List String :=
  collectSubtreeAux st (st.nodes.length + 1) rootId

/-- Source: deleteSubtree (lines 366-404). -/
def deleteSubtree (st : TreeState) (targetId : String) : TreeState :=
  match lookupA st.nodes targetId with
  | none => st
  | some target =>
    if targetId = ROOT_ID then st
    else
      let parentId := target.parentId
      let toDelete := collectSubtreeIds st targetId
      let nextNodes := st.nodes.filter (fun p => !(toDelete.contains p.1))
      let nextNodes2 :=
        match lookupA st.nodes parentId with
        | some parent =>
          if (lookupA nextNodes parentId).isSome then
            insertJS nextNodes parentId
              { parent with children := parent.children.filter (fun c => c ≠ targetId) }
          else nextNodes
        | none => nextNodes
      let nextCollapsed := st.collapsedIds.filter (fun p => !(toDelete.contains p.1))
      let nextActiveId := if (lookupA nextNodes2 parentId).isSome then parentId else ROOT_ID
      { st with activeId := nextActiveId, nodes := nextNodes2, collapsedIds := nextCollapsed }

/-- Source: toggleCollapseNode (lines 910-919), as a pure state transform. -/
def toggleCollapseNode (st : TreeState) (id : String) : TreeState :=
  let cur := truthy (lookupA st.collapsedIds id)
  { st with collapsedIds := insertJS st.collapsedIds id (!cur) }

/-- Source: expandAllNodes (lines 921-926). -/
def expandAllNodes (st : TreeState) : TreeState :=
  { st with collapsedIds := [] }

/-- Source: the upward walk of collapseAllOtherNodes (lines 933-942),
    collecting ids from activeId upward, root excluded. -/
def walkUpAux (st : TreeState) : Nat → List String → Option String → List String
  | 0, _, _ => []
  | f + 1, guard, cur =>
    match cur with
    | none => []
    | some c =>
      if c = "" ∨ c = ROOT_ID ∨ c ∈ guard then []
      else c :: walkUpAux st f (c :: guard) ((lookupA st.nodes c).map (fun n => n.parentId))

/-- Source: collapseAllOtherNodes (lines 928-968), the Focus transform. -/
def collapseAllOtherNodes (st : TreeState) : TreeState :=
  let up := walkUpAux st (st.nodes.length + 2) [] (some st.activeId)
  let path := ROOT_ID :: up.reverse
  let m1 := (path.zip path.tail).foldl
    (fun acc pq =>
      match lookupA st.nodes pq.1 with
      | none => acc
      | some parent =>
        if parent.children = [] then acc
        else parent.children.foldl
          (fun acc2 c => if c = pq.2 then acc2 else insertJS acc2 c true) acc)
    []
  let m2 :=
    match lookupA st.nodes st.activeId with
    | some active =>
      if active.children = [] then m1
      else active.children.foldl (fun acc c => insertJS acc c true) m1
    | none => m1
  let m3 := (m2.filter (fun p => p.1 ≠ ROOT_ID)).filter (fun p => p.1 ≠ st.activeId)
  { st with collapsedIds := m3 }

/-- Source: stripTreeForPersist (lines 88-109). -/
def stripTreeForPersist (st : TreeState) : TreeState :=
  { convoKey := st.convoKey,
    seenLinearCount := st.seenLinearCount,
    activeId := st.activeId,
    nodes := st.nodes.map (fun p =>
      (p.1,
        { id := p.2.id, parentId := p.2.parentId, children := p.2.children,
          depth := p.2.depth, linearIndex := p.2.linearIndex, summary := p.2.summary,
          userHtml := "", assistantHtml := "" })),
    collapsedIds := st.collapsedIds }

/-! ## Persistence codec (saveTree / loadTree, lines 81-117)

JSON values; the encoder models what JSON.stringify serializes of a
TreeState, the decoder models JSON.parse followed by loadTree's defaulting
of a missing collapsedIds field.  The string layer of the serialization is
external (the JSON grammar), so the round trip is stated at this level. -/

inductive Json where
  | str (s : String)
  | num (n : Int)
  | bool (b : Bool)
  | arr (elems : List Json)
  | obj (fields : List (String × Json))

/-- JSON image of a TreeNode. -/
def encodeNode (n : TreeNode) : Json :=
  Json.obj
    [("id", Json.str n.id), ("parentId", Json.str n.parentId),
     ("children", Json.arr (n.children.map Json.str)),
     ("depth", Json.num (n.depth : Int)), ("linearIndex", Json.num n.linearIndex),
     ("summary", Json.str n.summary), ("userHtml", Json.str n.userHtml),
     ("assistantHtml", Json.str n.assistantHtml)]

/-- JSON image of a TreeState, as produced by saveTree's JSON.stringify. -/
def encodeTree (st : TreeState) : Json :=
  Json.obj
    [("convoKey", Json.str st.convoKey),
     ("seenLinearCount", Json.num (st.seenLinearCount : Int)),
     ("activeId", Json.str st.activeId),
     ("nodes", Json.obj (st.nodes.map (fun p => (p.1, encodeNode p.2)))),
     ("collapsedIds", Json.obj (st.collapsedIds.map (fun p => (p.1, Json.bool p.2))))]

def jStr : Json → Option String
  | Json.str s => some s
  | _ => none

def jNat : Json → Option Nat
  | Json.num k => if k < 0 then none else some k.toNat
  | _ => none

def jInt : Json → Option Int
  | Json.num k => some k
  | _ => none

def jBool : Json → Option Bool
  | Json.bool b => some b
  | _ => none

def decodeStrs : List Json → Option (List String)
  | [] => some []
  | j :: rest =>
    match jStr j, decodeStrs rest with
    | some s, some l => some (s :: l)
    | _, _ => none

def decodeStrList : Json → Option (List String)
  | Json.arr es => decodeStrs es
  | _ => none

/-- Decoder for a TreeNode read back from a parsed snapshot. -/
def decodeNode (j : Json) : Option TreeNode :=
  match j with
  | Json.obj fields => do
    let id ← (lookupA fields "id").bind jStr
    let parentId ← (lookupA fields "parentId").bind jStr
    let children ← (lookupA fields "children").bind decodeStrList
    let depth ← (lookupA fields "depth").bind jNat
    let linearIndex ← (lookupA fields "linearIndex").bind jInt
    let summary ← (lookupA fields "summary").bind jStr
    let userHtml ← (lookupA fields "userHtml").bind jStr
    let assistantHtml ← (lookupA fields "assistantHtml").bind jStr
    some { id := id, parentId := parentId, children := children, depth := depth,
           linearIndex := linearIndex, summary := summary,
           userHtml := userHtml, assistantHtml := assistantHtml }
  | _ => none

def decodeNodeFields : List (String × Json) → Option NodeMap
  | [] => some []
  | (k, j) :: rest =>
    match decodeNode j, decodeNodeFields rest with
    | some n, some l => some ((k, n) :: l)
    | _, _ => none

def decodeBoolFields : List (String × Json) → Option (List (String × Bool))
  | [] => some []
  | (k, j) :: rest =>
    match jBool j, decodeBoolFields rest with
    | some b, some l => some ((k, b) :: l)
    | _, _ => none

/-- Decoder for a TreeState: models loadTree's JSON.parse plus its defaulting
    of a missing collapsedIds field to the empty record. -/
def decodeTree (j : Json) : Option TreeState :=
  match j with
  | Json.obj fields => do
    let convoKey ← (lookupA fields "convoKey").bind jStr
    let seen ← (lookupA fields "seenLinearCount").bind jNat
    let activeId ← (lookupA fields "activeId").bind jStr
    let nodes ←
      match lookupA fields "nodes" with
      | some (Json.obj nf) => decodeNodeFields nf
      | _ => none
    let collapsed ←
      match lookupA fields "collapsedIds" with
      | some (Json.obj cf) => decodeBoolFields cf
      | some _ => none
      | none => some []
    some { convoKey := convoKey, seenLinearCount := seen, activeId := activeId,
           nodes := nodes, collapsedIds := collapsed }
  | _ => none

/-! ## Tree invariants (spec section 3), as an executable check -/

/-- Executable well-formedness of a node table: the root exists with itself as
    parent and depth 0; keys are unique; every entry's id matches its key and
    is nonempty; no node lists the root as a child; children lists have no
    duplicates and point back to their parent; every non-root node resolves its
    parent, sits one level below it and appears among its children. -/
def wfNodes (m : NodeMap) : Bool :=
  (match lookupA m ROOT_ID with
   | some r => r.parentId == ROOT_ID && r.depth == 0
   | none => false) &&
  decide ((m.map Prod.fst).Nodup) &&
  m.all (fun p =>
    p.2.id == p.1 &&
    (p.1 != "") &&
    decide (ROOT_ID ∉ p.2.children) &&
    decide (p.2.children.Nodup) &&
    p.2.children.all (fun c =>
      match lookupA m c with
      | some child => child.parentId == p.1
      | none => false) &&
    (if p.1 == ROOT_ID then true
     else
       match lookupA m p.2.parentId with
       | some q => (p.2.depth == q.depth + 1) && decide (p.1 ∈ q.children)
       | none => false))

/-- Well-formedness of a state is well-formedness of its node table. -/
def wfB (st : TreeState) : Bool := wfNodes st.nodes

/-! ## Canonical ancestor chains (proof-side helpers) -/

/-- Ids from c upward to the root, c first, root excluded. -/
def ancIds (m : NodeMap) : Nat → String → List String
  | 0, _ => []
  | f + 1, c =>
    if c = ROOT_ID then []
    else
      match lookupA m c with
      | none => []
      | some n => c :: ancIds m f n.parentId

/-- Strict ancestors of c, nearest first, root included. -/
def ancStrict (m : NodeMap) : Nat → String → List String
  | 0, _ => []
  | f + 1, c =>
    if c = ROOT_ID then []
    else
      match lookupA m c with
      | none => []
      | some n => n.parentId :: ancStrict m f n.parentId

/-- Key-id agreement: every stored node's id field is its key. -/
def idOk (m : NodeMap) : Prop := ∀ k v, lookupA m k = some v → v.id = k

/-- a is listed among the children of the node stored at p. -/
def childOfB (m : NodeMap) (p a : String) : Bool :=
  match lookupA m p with
  | some pn => pn.children.contains a
  | none => false

/-- a is a skipped (off-path) child of the source of some path edge. -/
def sibKeyB (m : NodeMap) (edges : List (String × String)) (a : String) : Bool :=
  edges.any (fun pq => childOfB m pq.1 a && a != pq.2)

/-- The root-to-active path the Focus transform walks, root first. -/
def focusPath (st : TreeState) : List String :=
  ROOT_ID :: (walkUpAux st (st.nodes.length + 2) [] (some st.activeId)).reverse

/-- The keys the Focus transform marks collapsed: off-path children of path
    nodes and children of the active node, excluding the root and the active
    node themselves. -/
def collapsedKeyB (st : TreeState) (a : String) : Bool :=
  (sibKeyB st.nodes ((focusPath st).zip (focusPath st).tail) a
      || childOfB st.nodes st.activeId a)
    && a != ROOT_ID && a != st.activeId

/-- The first collapsed-keys accumulator of the Focus transform (the fold over
    consecutive path pairs), named for the proofs; equal by definition to the
    m1 binding of collapseAllOtherNodes. -/
def focusM1 (st : TreeState) : List (String × Bool) :=
  ((focusPath st).zip (focusPath st).tail).foldl
    (fun acc pq =>
      match lookupA st.nodes pq.1 with
      | none => acc
      | some parent =>
        if parent.children = [] then acc
        else parent.children.foldl
          (fun acc2 c => if c = pq.2 then acc2 else insertJS acc2 c true) acc)
    []

/-- The second collapsed-keys accumulator of the Focus transform (active's
    children added); equal by definition to the m2 binding. -/
def focusM2 (st : TreeState) : List (String × Bool) :=
  match lookupA st.nodes st.activeId with
  | some active =>
    if active.children = [] then focusM1 st
    else active.children.foldl (fun acc c => insertJS acc c true) (focusM1 st)
  | none => focusM1 st

/-! ## Concrete states for witnesses and counterexamples -/

/-- Shorthand node constructor for the example states. -/
def exN (id parentId : String) (children : List String) (depth : Nat)
    (linearIndex : Int) : TreeNode :=
  { id := id, parentId := parentId, children := children, depth := depth,
    linearIndex := linearIndex, summary := "s", userHtml := "u", assistantHtml := "a" }

/-- Root with two leaf children a and b; the active node is b. -/
def exTwoLeaves : TreeState :=
  { convoKey := "c", seenLinearCount := 2, activeId := "b",
    nodes :=
      [(ROOT_ID, { rootNode with children := ["a", "b"] }),
       ("a", exN "a" ROOT_ID [] 1 0),
       ("b", exN "b" ROOT_ID [] 1 1)],
    collapsedIds := [] }

/-- Root with children a and b; a has children x and y; the active node is x. -/
def exBranchy : TreeState :=
  { convoKey := "c", seenLinearCount := 4, activeId := "x",
    nodes :=
      [(ROOT_ID, { rootNode with children := ["a", "b"] }),
       ("a", exN "a" ROOT_ID ["x", "y"] 1 0),
       ("x", exN "x" "a" [] 2 1),
       ("y", exN "y" "a" [] 2 2),
       ("b", exN "b" ROOT_ID [] 1 3)],
    collapsedIds := [] }

/-- A three-pair extractor report used by witnesses. -/
def exPairs : List Pair :=
  [{ userText := "first question", assistantText := "first answer",
     userHtml := "<p>q1</p>", assistantHtml := "<p>a1</p>" },
   { userText := "second question", assistantText := "second answer",
     userHtml := "<p>q2</p>", assistantHtml := "<p>a2</p>" },
   { userText := "third question", assistantText := "third answer",
     userHtml := "<p>q3</p>", assistantHtml := "<p>a3</p>" }]

/-- A fixed disambiguator supply used by witnesses. -/
def exRnds : Nat → String := fun _ => "ff00"

/-! # Theorems -/

/-! ## Association list lemmas -/

theorem lookupA_insertJS_self {α : Type} (m : List (String × α)) (k : String) (v : α) :
    lookupA (insertJS m k v) k = some v := by
  induction m with
  | nil => simp [insertJS, lookupA]
  | cons p rest ih =>
    cases p with
    | mk k1 v1 =>
      by_cases hp : k1 = k
      · simp [insertJS, hp, lookupA]
      · simp only [insertJS, if_neg hp, lookupA, if_neg hp]
        exact ih

theorem lookupA_insertJS_ne {α : Type} (m : List (String × α)) (k k' : String) (v : α)
    (h : k' ≠ k) : lookupA (insertJS m k v) k' = lookupA m k' := by
  have hne : ¬ k = k' := fun e => h e.symm
  induction m with
  | nil =>
    simp only [insertJS, lookupA]
    rw [if_neg hne]
  | cons p rest ih =>
    cases p with
    | mk k1 v1 =>
      by_cases hp : k1 = k
      · subst hp
        simp only [insertJS, if_pos rfl, lookupA]
        rw [if_neg hne, if_neg hne]
      · simp only [insertJS, if_neg hp, lookupA]
        by_cases hk : k1 = k'
        · simp [hk]
        · simp only [if_neg hk]
          exact ih

theorem lookupA_filter {α : Type} (m : List (String × α)) (f : String → Bool) (k : String) :
    lookupA (m.filter (fun p => f p.1)) k = if f k then lookupA m k else none := by
  induction m with
  | nil => cases hfk : f k <;> simp [lookupA, hfk]
  | cons p rest ih =>
    cases p with
    | mk a b =>
      by_cases hk : a = k
      · subst hk
        cases hf : f a <;> simp [List.filter_cons, hf, lookupA, ih]
      · cases hf : f a <;> cases hfk : f k <;>
          simp_all [List.filter_cons, hf, lookupA, hk, ih, hfk]

theorem lookupA_mem {α : Type} {m : List (String × α)} {k : String} {v : α}
    (h : lookupA m k = some v) : (k, v) ∈ m := by
  induction m with
  | nil => simp [lookupA] at h
  | cons p rest ih =>
    cases p with
    | mk a b =>
      simp only [lookupA] at h
      by_cases hk : a = k
      · subst hk
        rw [if_pos rfl] at h
        simp only [Option.some.injEq] at h
        subst h
        exact List.mem_cons_self _ _
      · rw [if_neg hk] at h
        exact List.mem_cons_of_mem _ (ih h)

theorem lookupA_isSome_of_mem_key {α : Type} {m : List (String × α)} {k : String}
    (h : ∃ v, (k, v) ∈ m) : (lookupA m k).isSome = true := by
  obtain ⟨v, hv⟩ := h
  induction m with
  | nil => simp at hv
  | cons p rest ih =>
    simp only [lookupA]
    by_cases hk : p.1 = k
    · simp [hk]
    · rw [if_neg hk]
      rcases List.mem_cons.mp hv with h | h
      · exact absurd (congrArg Prod.fst h.symm) hk
      · exact ih h

theorem mem_lookupA_of_nodupKeys {α : Type} {m : List (String × α)} {k : String} {v : α}
    (hnd : (m.map Prod.fst).Nodup) (h : (k, v) ∈ m) : lookupA m k = some v := by
  induction m with
  | nil => simp at h
  | cons p rest ih =>
    simp only [List.map, List.nodup_cons] at hnd
    rcases List.mem_cons.mp h with h | h
    · rw [← h]
      simp [lookupA]
    · have hk : p.1 ≠ k := by
        intro e
        exact hnd.1 (e ▸ (List.mem_map.mpr ⟨(k, v), h, rfl⟩))
      simp only [lookupA, if_neg hk]
      exact ih hnd.2 h

/-! ## Decimal rendering lemmas -/

theorem natDigitsAux_fuel (f g n : Nat) (hf : n < f) (hg : n < g) :
    natDigitsAux f n = natDigitsAux g n := by
  induction n using Nat.strong_induction_on generalizing f g with
  | _ n ih =>
    match f, g, hf, hg with
    | f + 1, g + 1, hf, hg =>
      simp only [natDigitsAux]
      by_cases h : n < 10
      · simp [h]
      · rw [if_neg h, if_neg h]
        have hdiv : n / 10 < n := Nat.div_lt_self (by omega) (by omega)
        rw [ih (n / 10) hdiv f g (by omega) (by omega)]

theorem natDigitsAux_ne_nil {f n : Nat} (hf : n < f) : natDigitsAux f n ≠ [] := by
  match f with
  | f + 1 =>
    simp only [natDigitsAux]
    by_cases h : n < 10
    · simp [h]
    · rw [if_neg h]
      simp

theorem digitCh_inj {d e : Nat} (hd : d < 10) (he : e < 10) (h : digitCh d = digitCh e) :
    d = e := by
  interval_cases d <;> interval_cases e <;> revert h <;> decide

theorem digitCh_ne_underscore {d : Nat} (hd : d < 10) : digitCh d ≠ '_' := by
  interval_cases d <;> decide

theorem natDigitsAux_inj (f g m n : Nat) (hf : m < f) (hg : n < g)
    (h : natDigitsAux f m = natDigitsAux g n) : m = n := by
  induction m using Nat.strong_induction_on generalizing f g n with
  | _ m ih =>
    match f, g, hf, hg with
    | f + 1, g + 1, hf, hg =>
      simp only [natDigitsAux] at h
      by_cases hm : m < 10 <;> by_cases hn : n < 10
      · rw [if_pos hm, if_pos hn] at h
        simp only [List.cons.injEq] at h
        exact digitCh_inj hm hn h.1
      · rw [if_pos hm, if_neg hn] at h
        have hlen := congrArg List.length h
        simp only [List.length_cons, List.length_append, List.length_nil] at hlen
        have hnil : natDigitsAux g (n / 10) = [] := List.length_eq_zero.mp (by omega)
        exact absurd hnil (natDigitsAux_ne_nil (show n / 10 < g by omega))
      · rw [if_neg hm, if_pos hn] at h
        have hlen := congrArg List.length h
        simp only [List.length_cons, List.length_append, List.length_nil] at hlen
        have hnil : natDigitsAux f (m / 10) = [] := List.length_eq_zero.mp (by omega)
        exact absurd hnil (natDigitsAux_ne_nil (show m / 10 < f by omega))
      · rw [if_neg hm, if_neg hn] at h
        obtain ⟨h1, h2⟩ := List.append_inj' h rfl
        simp only [List.cons.injEq] at h2
        have hmod : m % 10 = n % 10 :=
          digitCh_inj (Nat.mod_lt _ (by omega)) (Nat.mod_lt _ (by omega)) h2.1
        have hdivlt : m / 10 < m := Nat.div_lt_self (by omega) (by omega)
        have hdiv : m / 10 = n / 10 := ih (m / 10) hdivlt f g (n / 10) (by omega) (by omega) h1
        omega

theorem natDigitsAux_no_underscore {f n : Nat} (c : Char) (hc : c ∈ natDigitsAux f n) :
    c ≠ '_' := by
  induction f generalizing n with
  | zero => simp [natDigitsAux] at hc
  | succ f ih =>
    simp only [natDigitsAux] at hc
    by_cases h : n < 10
    · rw [if_pos h] at hc
      simp only [List.mem_singleton] at hc
      subst hc
      exact digitCh_ne_underscore h
    · rw [if_neg h] at hc
      rcases List.mem_append.mp hc with hm | hm
      · exact ih hm
      · simp only [List.mem_singleton] at hm
        subst hm
        exact digitCh_ne_underscore (Nat.mod_lt _ (by omega))

theorem natToStr_inj {m n : Nat} (h : natToStr m = natToStr n) : m = n := by
  have hd : natDigitsAux (m + 1) m = natDigitsAux (n + 1) n := congrArg String.data h
  exact natDigitsAux_inj (m + 1) (n + 1) m n (Nat.lt_succ_self m) (Nat.lt_succ_self n) hd

/-- Underscore-free prefixes of an underscore-separated character list are
    uniquely determined. -/
theorem underscore_split_inj (l1 l2 r1 r2 : List Char)
    (h1 : '_' ∉ l1) (h2 : '_' ∉ l2)
    (h : l1 ++ '_' :: r1 = l2 ++ '_' :: r2) : l1 = l2 ∧ r1 = r2 := by
  induction l1 generalizing l2 with
  | nil =>
    cases l2 with
    | nil => simpa using h
    | cons c t =>
      simp only [List.nil_append, List.cons_append, List.cons.injEq] at h
      exact absurd (h.1 ▸ List.mem_cons_self c t) (fun hm => h2 (h.1 ▸ hm))
  | cons c t ih =>
    cases l2 with
    | nil =>
      simp only [List.cons_append, List.nil_append, List.cons.injEq] at h
      exact absurd (h.1 ▸ List.mem_cons_self c t) (fun hm => h1 (h.1 ▸ hm))
    | cons d u =>
      simp only [List.cons_append, List.cons.injEq] at h
      have ht := ih u (fun hm => h1 (List.mem_cons_of_mem _ hm))
        (fun hm => h2 (List.mem_cons_of_mem _ hm)) h.2
      exact ⟨by rw [h.1, ht.1], ht.2⟩

/-- The node ids generated by appendUnderActive determine their linear index. -/
theorem mkNodeId_idx_inj {i j : Nat} {r1 r2 : String}
    (h : mkNodeId i r1 = mkNodeId j r2) : i = j := by
  have hd := congrArg String.data h
  simp only [mkNodeId, String.data_append] at hd
  have hsplit : natDigitsAux (i + 1) i ++ '_' :: r1.data
      = natDigitsAux (j + 1) j ++ '_' :: r2.data := by
    have : ('n' :: '_' :: (natDigitsAux (i + 1) i ++ '_' :: r1.data) : List Char)
        = 'n' :: '_' :: (natDigitsAux (j + 1) j ++ '_' :: r2.data) := by
      simpa [natToStr, List.append_assoc] using hd
    simpa using this
  have := underscore_split_inj _ _ _ _
    (fun hm => natDigitsAux_no_underscore _ hm rfl)
    (fun hm => natDigitsAux_no_underscore _ hm rfl) hsplit
  exact natDigitsAux_inj (i + 1) (j + 1) i j (Nat.lt_succ_self i) (Nat.lt_succ_self j) this.1

/-- Aligner ids are injective in the pair index. -/
theorem alignId_inj {i j : Nat} (h : alignId i = alignId j) : i = j := by
  have hd := congrArg String.data h
  simp only [alignId, String.data_append] at hd
  have : natDigitsAux (i + 1) i = natDigitsAux (j + 1) j := by
    simpa [natToStr] using hd
  exact natDigitsAux_inj (i + 1) (j + 1) i j (Nat.lt_succ_self i) (Nat.lt_succ_self j) this

/-- Aligner ids never collide with the root id. -/
theorem alignId_ne_root (i : Nat) : alignId i ≠ ROOT_ID := by
  intro h
  have hd := congrArg String.data h
  simp [alignId, String.data_append, ROOT_ID, natToStr] at hd

/-! ## C7: invalid delete target is an atomic no-op -/

/-- C7: for every state, deleteSubtree applied to the root id, or to an id not
    present in the nodes table, returns the state completely unchanged (same
    nodes, same activeId, same collapsedIds, same seenLinearCount). -/
theorem deleteSubtree_invalid_noop (st : TreeState) (targetId : String)
    (h : lookupA st.nodes targetId = none ∨ targetId = ROOT_ID) :
    deleteSubtree st targetId = st := by
  rcases h with h | h
  · simp only [deleteSubtree, h]
  · subst h
    cases hl : lookupA st.nodes ROOT_ID with
    | none => simp [deleteSubtree, hl]
    | some t => simp [deleteSubtree, hl]

/-- Witness for C7: a concrete missing id and the root id are both no-ops. -/
theorem deleteSubtree_invalid_noop_witness :
    (lookupA exTwoLeaves.nodes "zzz" = none ∨ ("zzz" : String) = ROOT_ID) ∧
    deleteSubtree exTwoLeaves "zzz" = exTwoLeaves :=
  ⟨Or.inl (by decide), deleteSubtree_invalid_noop exTwoLeaves "zzz" (Or.inl (by decide))⟩

/-! ## C8: summary bound -/

/-- C8: the derived summary is the whitespace-normalized user text when that
    text has at most 20 characters, is its 20-character prefix followed by an
    ellipsis when longer, and is the fixed placeholder when the normalized
    text is empty. -/
theorem makeSummary_bound (userText : String) :
    (normalizeWs userText = "" → makeSummaryFromUserText userText 20 = "(empty)") ∧
    (normalizeWs userText ≠ "" →
      (makeSummaryFromUserText userText 20 = normalizeWs userText ∧
        (makeSummaryFromUserText userText 20).length ≤ 20) ∨
      (20 < (normalizeWs userText).length ∧
        makeSummaryFromUserText userText 20
          = String.mk ((normalizeWs userText).data.take 20) ++ "…" ∧
        (String.mk ((normalizeWs userText).data.take 20)).length = 20)) := by
  constructor
  · intro h
    simp [makeSummaryFromUserText, h]
  · intro h
    by_cases hlen : (normalizeWs userText).length ≤ 20
    · left
      constructor
      · simp [makeSummaryFromUserText, h, hlen]
      · simp only [makeSummaryFromUserText, if_neg h, if_pos hlen]
        exact hlen
    · right
      refine ⟨by omega, ?_, ?_⟩
      · simp [makeSummaryFromUserText, h, hlen]
      · have hmk : (String.mk ((normalizeWs userText).data.take 20)).length
            = ((normalizeWs userText).data.take 20).length := rfl
        have hdl : (normalizeWs userText).data.length = (normalizeWs userText).length := rfl
        rw [hmk, List.length_take]
        omega

/-- Witness for C8: a long input is truncated to 20 characters plus an
    ellipsis, and the normalization of a blank input yields the placeholder. -/
theorem makeSummary_bound_witness :
    (normalizeWs "  this is quite a long user question  " ≠ "" ∧
      ((makeSummaryFromUserText "  this is quite a long user question  " 20
          = normalizeWs "  this is quite a long user question  " ∧
        (makeSummaryFromUserText "  this is quite a long user question  " 20).length ≤ 20) ∨
      (20 < (normalizeWs "  this is quite a long user question  ").length ∧
        makeSummaryFromUserText "  this is quite a long user question  " 20
          = String.mk ((normalizeWs "  this is quite a long user question  ").data.take 20) ++ "…" ∧
        (String.mk ((normalizeWs "  this is quite a long user question  ").data.take 20)).length
          = 20))) ∧
    (normalizeWs "   " = "" ∧ makeSummaryFromUserText "   " 20 = "(empty)") :=
  ⟨⟨by decide, (makeSummary_bound "  this is quite a long user question  ").2 (by decide)⟩,
   by decide, (makeSummary_bound "   ").1 (by decide)⟩

/-! ## C10: collapse toggle is a visibility involution -/

/-- The hidden-walk only reads the node table and the truthiness of
    collapsedIds lookups, so it is stable under any rewrite of collapsedIds
    that preserves both. -/
theorem isHiddenAux_congr (st1 st2 : TreeState) (hn : st1.nodes = st2.nodes)
    (hc : ∀ x, truthy (lookupA st1.collapsedIds x) = truthy (lookupA st2.collapsedIds x)) :
    ∀ (f : Nat) (guard : List String) (c : String),
      isHiddenAux st1 f guard c = isHiddenAux st2 f guard c := by
  intro f
  induction f with
  | zero => intro guard c; rfl
  | succ f ih =>
    intro guard c
    simp only [isHiddenAux]
    by_cases h0 : c = "" ∨ c = ROOT_ID ∨ c ∈ guard
    · rw [if_pos h0, if_pos h0]
    · rw [if_neg h0, if_neg h0, hn]
      cases lookupA st2.nodes c with
      | none => rfl
      | some n =>
        simp only [hc]
        by_cases hp : n.parentId ≠ "" ∧ truthy (lookupA st2.collapsedIds n.parentId) = true
        · rw [if_pos hp, if_pos hp]
        · rw [if_neg hp, if_neg hp]
          exact ih (c :: guard) n.parentId

/-- C10: toggling the collapse flag of any id twice restores the visibility of
    every node, and a toggle never changes the nodes table, the activeId or
    seenLinearCount. -/
theorem toggleCollapse_involution (st : TreeState) (id : String) :
    (toggleCollapseNode st id).nodes = st.nodes ∧
    (toggleCollapseNode st id).activeId = st.activeId ∧
    (toggleCollapseNode st id).seenLinearCount = st.seenLinearCount ∧
    ∀ x, isHiddenByCollapsed (toggleCollapseNode (toggleCollapseNode st id) id) x
        = isHiddenByCollapsed st x := by
  refine ⟨rfl, rfl, rfl, ?_⟩
  intro x
  have hc : ∀ y,
      truthy (lookupA (toggleCollapseNode (toggleCollapseNode st id) id).collapsedIds y)
        = truthy (lookupA st.collapsedIds y) := by
    intro y
    by_cases hy : y = id
    · subst hy
      simp [toggleCollapseNode, lookupA_insertJS_self, truthy]
    · simp [toggleCollapseNode, lookupA_insertJS_ne _ _ _ _ hy]
  exact isHiddenAux_congr (toggleCollapseNode (toggleCollapseNode st id) id) st rfl hc _ [] x

/-! ## C9: pairing drops incomplete exchanges -/

theorem pairMessagesAux_len_le_assistant (pend : Option Msg) (msgs : List Msg) :
    (pairMessagesAux pend msgs).length
      ≤ (msgs.filter (fun m => m.role == Role.assistant)).length := by
  induction msgs generalizing pend with
  | nil => simp [pairMessagesAux]
  | cons m rest ih =>
    cases hr : m.role with
    | user =>
      simp only [pairMessagesAux, hr, List.filter_cons]
      have : (Role.user == Role.assistant) = false := by decide
      simp only [hr, this, Bool.false_eq_true, if_false]
      exact ih (some m)
    | assistant =>
      have hb : (Role.assistant == Role.assistant) = true := by decide
      cases pend with
      | some u =>
        simp only [pairMessagesAux, hr, List.filter_cons, hb, if_pos, List.length_cons]
        exact Nat.succ_le_succ (ih none)
      | none =>
        simp only [pairMessagesAux, hr, List.filter_cons, hb, if_pos, List.length_cons]
        exact Nat.le_succ_of_le (ih none)

theorem pairMessagesAux_len_le_user (pend : Option Msg) (msgs : List Msg) :
    (pairMessagesAux pend msgs).length
      ≤ (msgs.filter (fun m => m.role == Role.user)).length
        + (if pend.isSome then 1 else 0) := by
  induction msgs generalizing pend with
  | nil => simp [pairMessagesAux]
  | cons m rest ih =>
    cases hr : m.role with
    | user =>
      have hb : (Role.user == Role.user) = true := by decide
      simp only [pairMessagesAux, hr, List.filter_cons, hb, if_pos, List.length_cons]
      have := ih (some m)
      simp only [Option.isSome_some, if_pos] at this
      omega
    | assistant =>
      have hb : (Role.assistant == Role.user) = false := by decide
      cases pend with
      | some u =>
        simp only [pairMessagesAux, hr, List.filter_cons, hb, Bool.false_eq_true, if_false,
          List.length_cons, Option.isSome_some, if_pos]
        have := ih none
        simp only [Option.isSome_none, Bool.false_eq_true, if_false] at this
        omega
      | none =>
        simp only [pairMessagesAux, hr, List.filter_cons, hb, Bool.false_eq_true, if_false,
          Option.isSome_none]
        have := ih none
        simp only [Option.isSome_none, Bool.false_eq_true, if_false] at this
        omega

theorem pairMessagesAux_append_user (pend : Option Msg) (msgs : List Msg) (u : Msg)
    (hu : u.role = Role.user) :
    pairMessagesAux pend (msgs ++ [u]) = pairMessagesAux pend msgs := by
  induction msgs generalizing pend with
  | nil => simp [pairMessagesAux, hu]
  | cons m rest ih =>
    cases hr : m.role with
    | user => simp only [List.cons_append, pairMessagesAux, hr]; exact ih (some m)
    | assistant =>
      cases pend with
      | some w =>
        simp only [List.cons_append, pairMessagesAux, hr]
        exact congrArg (List.cons _) (ih none)
      | none => simp only [List.cons_append, pairMessagesAux, hr]; exact ih none

theorem pairToLinearNodesAux_len_le_assistant (pend : Option MsgP) (li : Nat)
    (msgs : List MsgP) :
    (pairToLinearNodesAux pend li msgs).length
      ≤ (msgs.filter (fun m => m.role == Role.assistant)).length := by
  induction msgs generalizing pend li with
  | nil => simp [pairToLinearNodesAux]
  | cons m rest ih =>
    cases hr : m.role with
    | user =>
      have hb : (Role.user == Role.assistant) = false := by decide
      simp only [pairToLinearNodesAux, hr, List.filter_cons, hb, Bool.false_eq_true, if_false]
      exact ih (some m) li
    | assistant =>
      have hb : (Role.assistant == Role.assistant) = true := by decide
      cases pend with
      | some u =>
        simp only [pairToLinearNodesAux, hr, List.filter_cons, hb, if_pos, List.length_cons]
        exact Nat.succ_le_succ (ih none (li + 1))
      | none =>
        simp only [pairToLinearNodesAux, hr, List.filter_cons, hb, if_pos, List.length_cons]
        exact Nat.le_succ_of_le (ih none li)

theorem pairToLinearNodesAux_len_le_user (pend : Option MsgP) (li : Nat) (msgs : List MsgP) :
    (pairToLinearNodesAux pend li msgs).length
      ≤ (msgs.filter (fun m => m.role == Role.user)).length
        + (if pend.isSome then 1 else 0) := by
  induction msgs generalizing pend li with
  | nil => simp [pairToLinearNodesAux]
  | cons m rest ih =>
    cases hr : m.role with
    | user =>
      have hb : (Role.user == Role.user) = true := by decide
      simp only [pairToLinearNodesAux, hr, List.filter_cons, hb, if_pos, List.length_cons]
      have := ih (some m) li
      simp only [Option.isSome_some, if_pos] at this
      omega
    | assistant =>
      have hb : (Role.assistant == Role.user) = false := by decide
      cases pend with
      | some u =>
        simp only [pairToLinearNodesAux, hr, List.filter_cons, hb, Bool.false_eq_true, if_false,
          List.length_cons, Option.isSome_some, if_pos]
        have := ih none (li + 1)
        simp only [Option.isSome_none, Bool.false_eq_true, if_false] at this
        omega
      | none =>
        simp only [pairToLinearNodesAux, hr, List.filter_cons, hb, Bool.false_eq_true, if_false,
          Option.isSome_none]
        have := ih none li
        simp only [Option.isSome_none, Bool.false_eq_true, if_false] at this
        omega

/-- C9: pairing emits at most one pair per assistant message with an
    unconsumed preceding user message: an assistant message with no pending
    user produces no pair, a trailing user message produces no pair, and the
    number of pairs is bounded by both role counts (in both paired
    extractors). -/
theorem pairing_drops_incomplete :
    (∀ msgs : List Msg,
      (pairMessages msgs).length ≤ (msgs.filter (fun m => m.role == Role.assistant)).length ∧
      (pairMessages msgs).length ≤ (msgs.filter (fun m => m.role == Role.user)).length) ∧
    (∀ (msgs : List Msg) (u : Msg), u.role = Role.user →
      pairMessages (msgs ++ [u]) = pairMessages msgs) ∧
    (∀ (a : Msg) (rest : List Msg), a.role = Role.assistant →
      pairMessages (a :: rest) = pairMessages rest) ∧
    (∀ msgs : List MsgP,
      (pairToLinearNodes msgs).length
        ≤ (msgs.filter (fun m => m.role == Role.assistant)).length ∧
      (pairToLinearNodes msgs).length
        ≤ (msgs.filter (fun m => m.role == Role.user)).length) := by
  refine ⟨fun msgs => ⟨?_, ?_⟩, fun msgs u hu => ?_, fun a rest ha => ?_,
    fun msgs => ⟨?_, ?_⟩⟩
  · exact pairMessagesAux_len_le_assistant none msgs
  · have := pairMessagesAux_len_le_user none msgs
    simpa using this
  · exact pairMessagesAux_append_user none msgs u hu
  · simp only [pairMessages, pairMessagesAux, ha]
  · exact pairToLinearNodesAux_len_le_assistant none 0 msgs
  · have := pairToLinearNodesAux_len_le_user none 0 msgs
    simpa using this

/-- Witness for C9: a trailing user message does not change the pairing. -/
theorem pairing_drops_incomplete_witness :
    (Msg.mk Role.user "q2" "h2").role = Role.user ∧
    pairMessages ([Msg.mk Role.user "q" "h", Msg.mk Role.assistant "a" "h"]
        ++ [Msg.mk Role.user "q2" "h2"])
      = pairMessages [Msg.mk Role.user "q" "h", Msg.mk Role.assistant "a" "h"] :=
  ⟨rfl, pairing_drops_incomplete.2.1 _ _ rfl⟩

/-! ## C5: delete and the active cursor -/

/-- C5 counterexample: in exTwoLeaves the active node b lies outside the
    deleted subtree of a (a valid non-root target), yet deleteSubtree moves
    activeId to the target's parent (the root) instead of leaving it at b. -/
theorem deleteSubtree_repoint_cex :
    exTwoLeaves.activeId = "b" ∧
    lookupA exTwoLeaves.nodes "a" ≠ none ∧ ("a" : String) ≠ ROOT_ID ∧
    ("b" ∉ collectSubtreeIds exTwoLeaves "a") ∧
    (deleteSubtree exTwoLeaves "a").activeId = ROOT_ID ∧
    (deleteSubtree exTwoLeaves "a").activeId ≠ exTwoLeaves.activeId := by decide

/-- C5 amended: for every valid non-root target, deleteSubtree re-points
    activeId unconditionally - to the deleted node's parent when that parent
    survives the deletion, and to the root otherwise - regardless of whether
    the previous activeId lay inside the deleted subtree. -/
theorem deleteSubtree_activeId_amended (st : TreeState) (targetId : String) (t : TreeNode)
    (hl : lookupA st.nodes targetId = some t) (hr : targetId ≠ ROOT_ID) :
    (deleteSubtree st targetId).activeId =
      if (lookupA (deleteSubtree st targetId).nodes t.parentId).isSome then t.parentId
      else ROOT_ID := by
  simp only [deleteSubtree, hl, if_neg hr]

/-- Witness for C5 amended, at the concrete state exTwoLeaves with target a. -/
theorem deleteSubtree_activeId_amended_witness :
    lookupA exTwoLeaves.nodes "a" = some (exN "a" ROOT_ID [] 1 0) ∧
    ("a" : String) ≠ ROOT_ID ∧
    (deleteSubtree exTwoLeaves "a").activeId =
      (if (lookupA (deleteSubtree exTwoLeaves "a").nodes (exN "a" ROOT_ID [] 1 0).parentId).isSome
       then (exN "a" ROOT_ID [] 1 0).parentId else ROOT_ID) :=
  ⟨by decide, by decide,
    deleteSubtree_activeId_amended exTwoLeaves "a" (exN "a" ROOT_ID [] 1 0)
      (by decide) (by decide)⟩

/-! ## C6: round-trip persistence -/

theorem decodeStrs_map (l : List String) : decodeStrs (l.map Json.str) = some l := by
  induction l with
  | nil => rfl
  | cons s rest ih => simp [decodeStrs, jStr, ih]

theorem jNat_natCast (k : Nat) : jNat (Json.num (k : Int)) = some k := by
  simp only [jNat]
  rw [if_neg (Int.not_lt.mpr (Int.natCast_nonneg k))]
  simp

theorem decodeNode_encodeNode (n : TreeNode) : decodeNode (encodeNode n) = some n := by
  simp [decodeNode, encodeNode, lookupA, jStr, jInt, jNat_natCast, decodeStrList, decodeStrs_map]

theorem decodeNodeFields_map (m : NodeMap) :
    decodeNodeFields (m.map (fun p => (p.1, encodeNode p.2))) = some m := by
  induction m with
  | nil => rfl
  | cons p rest ih =>
    cases p with
    | mk k v => simp [decodeNodeFields, decodeNode_encodeNode, ih]

theorem decodeBoolFields_map (m : List (String × Bool)) :
    decodeBoolFields (m.map (fun p => (p.1, Json.bool p.2))) = some m := by
  induction m with
  | nil => rfl
  | cons p rest ih =>
    cases p with
    | mk k v => simp [decodeBoolFields, jBool, ih]

/-- The JSON codec round-trips every TreeState value. -/
theorem decodeTree_encodeTree (st : TreeState) : decodeTree (encodeTree st) = some st := by
  simp [decodeTree, encodeTree, lookupA, jStr, jNat_natCast,
    decodeNodeFields_map, decodeBoolFields_map]

/-- C6: decoding the encoded form of the stripped state yields the stripped
    state field-for-field, and both markup fields are empty in every node of
    the stripped state. -/
theorem roundtrip_persistence (st : TreeState) :
    decodeTree (encodeTree (stripTreeForPersist st)) = some (stripTreeForPersist st) ∧
    ∀ p ∈ (stripTreeForPersist st).nodes, p.2.userHtml = "" ∧ p.2.assistantHtml = "" := by
  refine ⟨decodeTree_encodeTree _, ?_⟩
  intro p hp
  simp only [stripTreeForPersist, List.mem_map] at hp
  obtain ⟨q, _, hq⟩ := hp
  rw [← hq]
  exact ⟨rfl, rfl⟩

/-- Witness for C6 at a concrete state with markup present. -/
theorem roundtrip_persistence_witness :
    decodeTree (encodeTree (stripTreeForPersist exBranchy))
      = some (stripTreeForPersist exBranchy) ∧
    ∀ p ∈ (stripTreeForPersist exBranchy).nodes,
      p.2.userHtml = "" ∧ p.2.assistantHtml = "" :=
  roundtrip_persistence exBranchy

/-! ## Well-formedness extraction -/

theorem wf_root {m : NodeMap} (h : wfNodes m = true) :
    ∃ r, lookupA m ROOT_ID = some r ∧ r.parentId = ROOT_ID ∧ r.depth = 0 := by
  unfold wfNodes at h
  simp only [Bool.and_eq_true] at h
  have h1 := h.1.1
  cases hl : lookupA m ROOT_ID with
  | none => rw [hl] at h1; exact absurd h1 (by simp)
  | some r =>
    rw [hl] at h1
    simp only [Bool.and_eq_true, beq_iff_eq] at h1
    exact ⟨r, rfl, h1.1, h1.2⟩

theorem wf_keysNodup {m : NodeMap} (h : wfNodes m = true) : (m.map Prod.fst).Nodup := by
  unfold wfNodes at h
  simp only [Bool.and_eq_true] at h
  exact of_decide_eq_true h.1.2

theorem wf_entry {m : NodeMap} {id : String} {n : TreeNode}
    (h : wfNodes m = true) (hl : lookupA m id = some n) :
    n.id = id ∧ id ≠ "" ∧ ROOT_ID ∉ n.children ∧ n.children.Nodup ∧
    (∀ c ∈ n.children, ∃ ch, lookupA m c = some ch ∧ ch.parentId = id) ∧
    (id ≠ ROOT_ID →
      ∃ q, lookupA m n.parentId = some q ∧ n.depth = q.depth + 1 ∧ id ∈ q.children) := by
  unfold wfNodes at h
  simp only [Bool.and_eq_true] at h
  have hall := h.2
  rw [List.all_eq_true] at hall
  have he := hall (id, n) (lookupA_mem hl)
  simp only [Bool.and_eq_true, beq_iff_eq, bne_iff_ne, decide_eq_true_eq,
    List.all_eq_true] at he
  obtain ⟨⟨⟨⟨⟨hid, hne⟩, hnr⟩, hnd⟩, hch⟩, hpar⟩ := he
  refine ⟨hid, hne, hnr, hnd, ?_, ?_⟩
  · intro c hc
    have := hch c hc
    cases hlc : lookupA m c with
    | none => rw [hlc] at this; exact absurd this (by simp)
    | some ch =>
      rw [hlc] at this
      simp only [beq_iff_eq] at this
      exact ⟨ch, rfl, this⟩
  · intro hroot
    rw [if_neg hroot] at hpar
    cases hlq : lookupA m n.parentId with
    | none => rw [hlq] at hpar; exact absurd hpar (by simp)
    | some q =>
      rw [hlq] at hpar
      simp only [Bool.and_eq_true, beq_iff_eq, decide_eq_true_eq] at hpar
      exact ⟨q, rfl, hpar.1, hpar.2⟩

theorem wf_depth_zero {m : NodeMap} {id : String} {n : TreeNode}
    (h : wfNodes m = true) (hl : lookupA m id = some n) (hd : n.depth = 0) :
    id = ROOT_ID := by
  by_contra hne
  obtain ⟨q, _, hdep, _⟩ := (wf_entry h hl).2.2.2.2.2 hne
  omega

theorem wf_depth_pos {m : NodeMap} {id : String} {n : TreeNode}
    (h : wfNodes m = true) (hl : lookupA m id = some n) (hne : id ≠ ROOT_ID) :
    0 < n.depth := by
  obtain ⟨q, _, hdep, _⟩ := (wf_entry h hl).2.2.2.2.2 hne
  omega

/-! ## C1: no resurrection -/

/-- Every id collected by the subtree dfs is the start id or listed among
    some node's children (at any fuel). -/
theorem collectSubtreeAux_mem {st : TreeState} :
    ∀ {f : Nat} {id x : String}, x ∈ collectSubtreeAux st f id →
      x = id ∨ ∃ p ∈ st.nodes, x ∈ p.2.children := by
  intro f
  induction f with
  | zero => intro id x hx; simp [collectSubtreeAux] at hx
  | succ f ih =>
    intro id x hx
    simp only [collectSubtreeAux] at hx
    cases hl : lookupA st.nodes id with
    | none => rw [hl] at hx; simp at hx
    | some n =>
      rw [hl] at hx
      rcases List.mem_cons.mp hx with rfl | hx
      · exact Or.inl rfl
      · rw [List.mem_flatten] at hx
        obtain ⟨l, hlmem, hxl⟩ := hx
        rw [List.mem_map] at hlmem
        obtain ⟨c, hcmem, rfl⟩ := hlmem
        rcases ih hxl with rfl | h
        · exact Or.inr ⟨(id, n), lookupA_mem hl, hcmem⟩
        · exact Or.inr h

/-- In a well-formed state a non-root deletion keeps the root present. -/
theorem deleteSubtree_root_isSome {st : TreeState} {targetId : String}
    (hw : wfB st = true) (ht : targetId ≠ ROOT_ID) :
    (lookupA (deleteSubtree st targetId).nodes ROOT_ID).isSome = true := by
  obtain ⟨r, hroot, _, _⟩ := wf_root hw
  cases hl : lookupA st.nodes targetId with
  | none => simp [deleteSubtree, hl, hroot]
  | some target =>
    have hnotdel : ROOT_ID ∉ collectSubtreeIds st targetId := by
      intro hmem
      rcases collectSubtreeAux_mem hmem with h | ⟨p, hp, hc⟩
      · exact ht h.symm
      · have hlp : lookupA st.nodes p.1 = some p.2 :=
          mem_lookupA_of_nodupKeys (wf_keysNodup hw) hp
        exact (wf_entry hw hlp).2.2.1 hc
    have hcontains : ((collectSubtreeIds st targetId).contains ROOT_ID) = false := by
      cases hc : (collectSubtreeIds st targetId).contains ROOT_ID
      · rfl
      · exact absurd (by simpa using hc) hnotdel
    have hfilter :
        lookupA (st.nodes.filter
          (fun p => !((collectSubtreeIds st targetId).contains p.1))) ROOT_ID
          = some r := by
      rw [lookupA_filter st.nodes (fun k => !((collectSubtreeIds st targetId).contains k))
        ROOT_ID]
      rw [hcontains]
      simpa using hroot
    simp only [deleteSubtree, hl, if_neg ht]
    cases hlp : lookupA st.nodes target.parentId with
    | none =>
      simp only [hlp]
      rw [hfilter]
      rfl
    | some parent =>
      simp only [hlp]
      by_cases hps : (lookupA (st.nodes.filter
          (fun p => !((collectSubtreeIds st targetId).contains p.1))) target.parentId).isSome
      · simp only [hps, if_pos]
        by_cases hpr : target.parentId = ROOT_ID
        · rw [hpr, lookupA_insertJS_self]
          rfl
        · have hne : ROOT_ID ≠ target.parentId := fun e => hpr e.symm
          rw [lookupA_insertJS_ne _ _ _ _ hne, hfilter]
          rfl
      · simp only [hps, Bool.false_eq_true, if_false]
        rw [hfilter]
        rfl

/-- Deletion never changes seenLinearCount. -/
theorem deleteSubtree_seen (st : TreeState) (targetId : String) :
    (deleteSubtree st targetId).seenLinearCount = st.seenLinearCount := by
  cases hl : lookupA st.nodes targetId with
  | none => simp [deleteSubtree, hl]
  | some target =>
    by_cases hr : targetId = ROOT_ID
    · subst hr
      simp only [deleteSubtree]
      cases lookupA st.nodes ROOT_ID <;> rfl
    · simp [deleteSubtree, hl, hr]

theorem idOk_of_wf {m : NodeMap} (hw : wfNodes m = true) : idOk m :=
  fun _ _ hl => (wf_entry hw hl).1

theorem lookupA_insertJS_isSome_mono {α : Type} {m : List (String × α)} {k k' : String}
    {v : α} (h : (lookupA m k').isSome = true) :
    (lookupA (insertJS m k v) k').isSome = true := by
  by_cases he : k' = k
  · subst he
    rw [lookupA_insertJS_self]
    rfl
  · rw [lookupA_insertJS_ne _ _ _ _ he]
    exact h

/-- In a state whose root resolves and whose keys carry their own ids, the
    resolved append parent is itself stored at its id. -/
theorem resolveAppendParent_key {st : TreeState}
    (hroot : (lookupA st.nodes ROOT_ID).isSome = true) (hid : idOk st.nodes) :
    lookupA st.nodes (resolveAppendParent st).id = some (resolveAppendParent st) := by
  unfold resolveAppendParent
  cases ha : lookupA st.nodes st.activeId with
  | some p => rw [hid _ _ ha]; exact ha
  | none =>
    cases hr : lookupA st.nodes ROOT_ID with
    | none => rw [hr] at hroot; exact absurd hroot (by simp)
    | some r =>
      simp only [Option.getD_some]
      rw [hid _ _ hr]
      exact hr

theorem appendUnderActive_root_isSome {st : TreeState} {pair : Pair} {idx : Nat} {rnd : String}
    (hroot : (lookupA st.nodes ROOT_ID).isSome = true) :
    (lookupA (appendUnderActive st pair idx rnd).nodes ROOT_ID).isSome = true := by
  unfold appendUnderActive
  exact lookupA_insertJS_isSome_mono (lookupA_insertJS_isSome_mono hroot)

theorem appendUnderActive_idOk {st : TreeState} {pair : Pair} {idx : Nat} {rnd : String}
    (_hroot : (lookupA st.nodes ROOT_ID).isSome = true) (hid : idOk st.nodes) :
    idOk (appendUnderActive st pair idx rnd).nodes := by
  intro k v hl
  unfold appendUnderActive at hl
  simp only at hl
  by_cases hp : k = (resolveAppendParent st).id
  · subst hp
    rw [lookupA_insertJS_self] at hl
    simp only [Option.some.injEq] at hl
    rw [← hl]
  · rw [lookupA_insertJS_ne _ _ _ _ hp] at hl
    by_cases hn : k = mkNodeId idx rnd
    · subst hn
      rw [lookupA_insertJS_self] at hl
      simp only [Option.some.injEq] at hl
      rw [← hl]
    · rw [lookupA_insertJS_ne _ _ _ _ hn] at hl
      exact hid _ _ hl

/-- One append step only touches the parent key (already present, children
    extended, linear index kept) and the new node, whose linear index is the
    appended index. -/
theorem appendUnderActive_lookup {st : TreeState} {pair : Pair} {idx : Nat} {rnd : String}
    {id : String} {n : TreeNode}
    (hroot : (lookupA st.nodes ROOT_ID).isSome = true) (hid : idOk st.nodes)
    (h : lookupA (appendUnderActive st pair idx rnd).nodes id = some n) :
    (∃ v, lookupA st.nodes id = some v ∧ n.linearIndex = v.linearIndex) ∨
      n.linearIndex = (idx : Int) := by
  unfold appendUnderActive at h
  simp only at h
  by_cases hp : id = (resolveAppendParent st).id
  · subst hp
    rw [lookupA_insertJS_self] at h
    simp only [Option.some.injEq] at h
    exact Or.inl ⟨resolveAppendParent st, resolveAppendParent_key hroot hid, by rw [← h]⟩
  · rw [lookupA_insertJS_ne _ _ _ _ hp] at h
    by_cases hn : id = mkNodeId idx rnd
    · subst hn
      rw [lookupA_insertJS_self] at h
      simp only [Option.some.injEq] at h
      right
      rw [← h]
    · rw [lookupA_insertJS_ne _ _ _ _ hn] at h
      exact Or.inl ⟨n, h, rfl⟩

/-- Folding appends over indices bounded below by b creates nodes only for
    linear indices at least b; keys already present keep their linear index
    or get one at least b. -/
theorem reconcileFold_new_nodes (rnds : Nat → String) (pairs : List Pair) (b : Nat) :
    ∀ (idxs : List Nat) (st : TreeState),
      (lookupA st.nodes ROOT_ID).isSome = true → idOk st.nodes →
      (∀ i ∈ idxs, b ≤ i) →
      ∀ id n,
        lookupA ((idxs.foldl
          (fun s i => appendUnderActive s (pairs.getD i dfltPair) i (rnds i)) st).nodes) id
          = some n →
        (∃ v, lookupA st.nodes id = some v ∧ n.linearIndex = v.linearIndex) ∨
          (b : Int) ≤ n.linearIndex := by
  intro idxs
  induction idxs with
  | nil =>
    intro st hroot hid hb id n h
    simp only [List.foldl_nil] at h
    exact Or.inl ⟨n, h, rfl⟩
  | cons i rest ih =>
    intro st hroot hid hb id n h
    simp only [List.foldl_cons] at h
    have hstep := ih (appendUnderActive st (pairs.getD i dfltPair) i (rnds i))
      (appendUnderActive_root_isSome hroot) (appendUnderActive_idOk hroot hid)
      (fun j hj => hb j (List.mem_cons_of_mem _ hj)) id n h
    rcases hstep with ⟨v1, hl1, hlin1⟩ | hge
    · rcases appendUnderActive_lookup hroot hid hl1 with ⟨v0, hl0, hlin0⟩ | hidx
      · exact Or.inl ⟨v0, hl0, by rw [hlin1, hlin0]⟩
      · right
        rw [hlin1, hidx]
        have : b ≤ i := hb i (List.mem_cons_self _ _)
        exact_mod_cast this
    · exact Or.inr hge

theorem lookupA_filter_some {α : Type} (m : List (String × α)) (f : String → Bool)
    (k : String) (v : α) (h : lookupA (m.filter (fun p => f p.1)) k = some v) :
    lookupA m k = some v := by
  rw [lookupA_filter] at h
  by_cases hf : f k
  · rwa [if_pos hf] at h
  · rw [if_neg hf] at h
    exact absurd h (by simp)

/-- Deletion preserves key-id agreement. -/
theorem deleteSubtree_idOk {st : TreeState} (hw : wfB st = true) (targetId : String) :
    idOk (deleteSubtree st targetId).nodes := by
  intro k v hl
  cases hlt : lookupA st.nodes targetId with
  | none =>
    rw [deleteSubtree_invalid_noop st targetId (Or.inl hlt)] at hl
    exact idOk_of_wf hw _ _ hl
  | some target =>
    by_cases hr : targetId = ROOT_ID
    · rw [deleteSubtree_invalid_noop st targetId (Or.inr hr)] at hl
      exact idOk_of_wf hw _ _ hl
    · simp only [deleteSubtree, hlt, if_neg hr] at hl
      cases hlp : lookupA st.nodes target.parentId with
      | none =>
        simp only [hlp] at hl
        exact idOk_of_wf hw _ _ (lookupA_filter_some st.nodes
          (fun s => !((collectSubtreeIds st targetId).contains s)) k v hl)
      | some parent =>
        simp only [hlp] at hl
        by_cases hps : (lookupA (st.nodes.filter
            (fun p => !((collectSubtreeIds st targetId).contains p.1))) target.parentId).isSome
        · simp only [hps, if_pos] at hl
          by_cases hk : k = target.parentId
          · subst hk
            rw [lookupA_insertJS_self] at hl
            simp only [Option.some.injEq] at hl
            rw [← hl]
            exact (wf_entry hw hlp).1
          · rw [lookupA_insertJS_ne _ _ _ _ hk] at hl
            exact idOk_of_wf hw _ _ (lookupA_filter_some st.nodes
              (fun s => !((collectSubtreeIds st targetId).contains s)) k v hl)
        · simp only [hps, Bool.false_eq_true, if_false] at hl
          exact idOk_of_wf hw _ _ (lookupA_filter_some st.nodes
            (fun s => !((collectSubtreeIds st targetId).contains s)) k v hl)

/-- C1: deleteSubtree never decreases seenLinearCount, so a subsequent
    reconcile with a pairs sequence of the same or greater length appends
    nodes only for linear indices at least the pre-deletion seenLinearCount:
    every id bound after the reconcile either was already present after the
    deletion or carries a linear index at least st.seenLinearCount, so no
    node is re-created for a linear index already folded into the tree. -/
theorem no_resurrection (st : TreeState) (targetId : String)
    (hw : wfB st = true) (ht : targetId ≠ ROOT_ID)
    (_hv : (lookupA st.nodes targetId).isSome = true) :
    (deleteSubtree st targetId).seenLinearCount = st.seenLinearCount ∧
    ∀ (pairs : List Pair) (rnds : Nat → String),
      st.seenLinearCount ≤ pairs.length →
      ∀ (id : String) (n : TreeNode),
        lookupA (reconcile rnds (deleteSubtree st targetId) pairs).nodes id = some n →
        (lookupA (deleteSubtree st targetId).nodes id).isSome = true ∨
          (st.seenLinearCount : Int) ≤ n.linearIndex := by
  refine ⟨deleteSubtree_seen st targetId, ?_⟩
  intro pairs rnds _hlen id n h
  unfold reconcile at h
  by_cases hle : pairs.length ≤ (deleteSubtree st targetId).seenLinearCount
  · rw [if_pos hle] at h
    left
    rw [h]
    rfl
  · rw [if_neg hle] at h
    have hroot := deleteSubtree_root_isSome hw ht
    have hid := deleteSubtree_idOk hw targetId
    have hb : ∀ i ∈ List.range' (deleteSubtree st targetId).seenLinearCount
        (pairs.length - (deleteSubtree st targetId).seenLinearCount),
        (deleteSubtree st targetId).seenLinearCount ≤ i :=
      fun i hi => (List.mem_range'_1.mp hi).1
    have hfold := reconcileFold_new_nodes rnds pairs
      ((deleteSubtree st targetId).seenLinearCount) _ _ hroot hid hb id n h
    rcases hfold with ⟨w, hw', _⟩ | hge
    · left
      rw [hw']
      rfl
    · right
      rw [deleteSubtree_seen st targetId] at hge
      exact hge

/-- Witness for C1 at the concrete branchy state with target a. -/
theorem no_resurrection_witness :
    wfB exBranchy = true ∧ ("a" : String) ≠ ROOT_ID ∧
    (lookupA exBranchy.nodes "a").isSome = true ∧
    ((deleteSubtree exBranchy "a").seenLinearCount = exBranchy.seenLinearCount ∧
    ∀ (pairs : List Pair) (rnds : Nat → String),
      exBranchy.seenLinearCount ≤ pairs.length →
      ∀ (id : String) (n : TreeNode),
        lookupA (reconcile rnds (deleteSubtree exBranchy "a") pairs).nodes id = some n →
        (lookupA (deleteSubtree exBranchy "a").nodes id).isSome = true ∨
          (exBranchy.seenLinearCount : Int) ≤ n.linearIndex) :=
  ⟨by decide, by decide, by decide,
    no_resurrection exBranchy "a" (by decide) (by decide) (by decide)⟩

/-! ## C3: aligner result shape -/

theorem lookupA_insertJS_isSome_iff {α : Type} (m : List (String × α)) (k x : String) (v : α) :
    (lookupA (insertJS m k v) x).isSome = true ↔ (x = k ∨ (lookupA m x).isSome = true) := by
  by_cases hx : x = k
  · subst hx
    rw [lookupA_insertJS_self]
    simp
  · rw [lookupA_insertJS_ne _ _ _ _ hx]
    simp [hx]

theorem alignStep_eq (pairs : List Pair) (k : Nat) (hk : k ≠ 0) (B : NodeMap × String)
    (h2 : B.2 = alignId (k - 1))
    (hP : lookupA B.1 (alignId (k - 1)) = some (alignNodeSpec pairs (k - 1) k)) :
    alignStep pairs B k
      = (insertJS (insertJS B.1 (alignId k) (alignNodeSpec pairs k (k + 1)))
          (alignId (k - 1)) (alignNodeSpec pairs (k - 1) (k + 1)),
        alignId k) := by
  have hparent_ne : alignId (k - 1) ≠ alignId k := by
    intro e
    have := alignId_inj e
    omega
  have hnode :
      ({ id := alignId k, parentId := alignId (k - 1), children := [],
         depth := ((some (alignNodeSpec pairs (k - 1) k)).map (fun p => p.depth)).getD 0 + 1,
         linearIndex := (k : Int),
         summary := makeSummaryFromUserText (((pairs.get? k).map (fun p => p.userText)).getD "") 20,
         userHtml := "", assistantHtml := "" } : TreeNode)
        = alignNodeSpec pairs k (k + 1) := by
    simp only [alignNodeSpec, Option.map_some', Option.getD_some]
    rw [if_neg hk, Nat.add_sub_cancel, if_pos rfl]
    have : k - 1 + 1 + 1 = k + 1 := by omega
    rw [this]
  have hupd :
      ({ alignNodeSpec pairs (k - 1) k with
          children := (alignNodeSpec pairs (k - 1) k).children ++ [alignId k] } : TreeNode)
        = alignNodeSpec pairs (k - 1) (k + 1) := by
    simp only [alignNodeSpec]
    rw [if_neg (show ¬ (k - 1 = k + 1 - 1) by omega), show k - 1 + 1 = k from by omega]
    simp
  unfold alignStep
  simp only []
  rw [h2, hP]
  simp only [hnode]
  rw [lookupA_insertJS_ne _ _ _ _ hparent_ne, hP]
  simp only [hupd]

theorem alignFold_spec (pairs : List Pair) (k : Nat) :
    ((List.range k).foldl (alignStep pairs) ([(ROOT_ID, rootNode)], ROOT_ID)).2
      = (if k = 0 then ROOT_ID else alignId (k - 1)) ∧
    lookupA ((List.range k).foldl (alignStep pairs) ([(ROOT_ID, rootNode)], ROOT_ID)).1 ROOT_ID
      = some { rootNode with children := if k = 0 then [] else [alignId 0] } ∧
    (∀ i, i < k →
      lookupA ((List.range k).foldl (alignStep pairs) ([(ROOT_ID, rootNode)], ROOT_ID)).1
        (alignId i) = some (alignNodeSpec pairs i k)) ∧
    (∀ id, (lookupA ((List.range k).foldl (alignStep pairs) ([(ROOT_ID, rootNode)], ROOT_ID)).1
        id).isSome = true ↔ (id = ROOT_ID ∨ ∃ i, i < k ∧ id = alignId i)) := by
  induction k with
  | zero =>
    refine ⟨rfl, ?_, ?_, ?_⟩
    · simp only [List.range_zero, List.foldl_nil]
      decide
    · intro i hi
      exact absurd hi (by omega)
    intro id
    simp only [List.range_zero, List.foldl_nil]
    constructor
    · intro h
      left
      by_cases hid : ROOT_ID = id
      · exact hid.symm
      · simp [lookupA, hid] at h
    · rintro (rfl | ⟨i, hi, rfl⟩)
      · simp [lookupA]
      · omega
  | succ k ih =>
    obtain ⟨ih1, ih2, ih3, ih4⟩ := ih
    by_cases hk : k = 0
    · subst hk
      have hr : ¬ (ROOT_ID = alignId 0) := fun e => alignId_ne_root 0 e.symm
      have hr2 : ¬ (alignId 0 = ROOT_ID) := alignId_ne_root 0
      refine ⟨?_, ?_, ?_, ?_⟩
      · simp [List.range_succ, List.range_zero, alignStep]
      · simp [List.range_succ, List.range_zero, alignStep, lookupA, insertJS, hr, hr2, rootNode]
      · intro i hi
        have hi0 : i = 0 := by omega
        subst hi0
        simp [List.range_succ, List.range_zero, alignStep, lookupA, insertJS, hr, hr2, rootNode,
          alignNodeSpec]
      · intro id
        constructor
        · intro h
          by_cases h1 : ROOT_ID = id
          · exact Or.inl h1.symm
          · by_cases h2 : alignId 0 = id
            · exact Or.inr ⟨0, by omega, h2.symm⟩
            · simp [List.range_succ, List.range_zero, alignStep, lookupA, insertJS, hr, h1, h2] at h
        · rintro (rfl | ⟨i, hi, rfl⟩)
          · simp [List.range_succ, List.range_zero, alignStep, lookupA, insertJS, hr]
          · have hi0 : i = 0 := by omega
            subst hi0
            simp [List.range_succ, List.range_zero, alignStep, lookupA, insertJS, hr, hr2]
    · rw [if_neg hk] at ih1
      have hstep := alignStep_eq pairs k hk
        ((List.range k).foldl (alignStep pairs) ([(ROOT_ID, rootNode)], ROOT_ID)) ih1
        (ih3 (k - 1) (by omega))
      rw [List.range_succ, List.foldl_append, List.foldl_cons, List.foldl_nil, hstep]
      have hkm_ne_k : alignId (k - 1) ≠ alignId k := by
        intro e
        have := alignId_inj e
        omega
      refine ⟨by simp, ?_, ?_, ?_⟩
      · have hr1 : ROOT_ID ≠ alignId (k - 1) := fun e => alignId_ne_root (k - 1) e.symm
        have hr2 : ROOT_ID ≠ alignId k := fun e => alignId_ne_root k e.symm
        rw [lookupA_insertJS_ne _ _ _ _ hr1, lookupA_insertJS_ne _ _ _ _ hr2, ih2]
        simp [hk]
      · intro i hi
        by_cases hik : i = k
        · subst hik
          have hi_ne : alignId i ≠ alignId (i - 1) := by
            intro e
            have := alignId_inj e
            omega
          rw [lookupA_insertJS_ne _ _ _ _ hi_ne, lookupA_insertJS_self]
        · by_cases hikm : i = k - 1
          · subst hikm
            rw [lookupA_insertJS_self]
          · have hne1 : alignId i ≠ alignId (k - 1) := by
              intro e
              have := alignId_inj e
              omega
            have hne2 : alignId i ≠ alignId k := by
              intro e
              have := alignId_inj e
              omega
            rw [lookupA_insertJS_ne _ _ _ _ hne1, lookupA_insertJS_ne _ _ _ _ hne2,
              ih3 i (by omega)]
            have hspec : alignNodeSpec pairs i k = alignNodeSpec pairs i (k + 1) := by
              simp only [alignNodeSpec]
              rw [if_neg (show ¬ (i = k - 1) from hikm),
                if_neg (show ¬ (i = k + 1 - 1) by omega)]
            rw [hspec]
      · intro id
        rw [lookupA_insertJS_isSome_iff, lookupA_insertJS_isSome_iff, ih4]
        constructor
        · rintro (h | h | h)
          · exact Or.inr ⟨k - 1, by omega, h⟩
          · exact Or.inr ⟨k, by omega, h⟩
          · rcases h with h | ⟨i, hi, hid⟩
            · exact Or.inl h
            · exact Or.inr ⟨i, by omega, hid⟩
        · rintro (h | ⟨i, hi, rfl⟩)
          · exact Or.inr (Or.inr (Or.inl h))
          · by_cases hik : i = k
            · exact Or.inr (Or.inl (by rw [hik]))
            · exact Or.inr (Or.inr (Or.inr ⟨i, by omega, rfl⟩))

/-- C3: align produces a TreeState containing exactly the root plus one node
    per pair forming a single linear chain - node i is the sole child of node
    i-1 and node 0's parent is the root - with the last chain node active
    (root when pairs is empty), seenLinearCount equal to pairs.length, and no
    collapsed ids. -/
theorem buildAligned_shape (key : String) (pairs : List Pair) :
    (buildAlignedLinearTreeFromPairs key pairs).convoKey = key ∧
    (buildAlignedLinearTreeFromPairs key pairs).seenLinearCount = pairs.length ∧
    (buildAlignedLinearTreeFromPairs key pairs).collapsedIds = [] ∧
    (buildAlignedLinearTreeFromPairs key pairs).activeId
      = (if pairs.length = 0 then ROOT_ID else alignId (pairs.length - 1)) ∧
    lookupA (buildAlignedLinearTreeFromPairs key pairs).nodes ROOT_ID
      = some { rootNode with children := if pairs.length = 0 then [] else [alignId 0] } ∧
    (∀ i, i < pairs.length →
      lookupA (buildAlignedLinearTreeFromPairs key pairs).nodes (alignId i)
        = some (alignNodeSpec pairs i pairs.length)) ∧
    (∀ id, (lookupA (buildAlignedLinearTreeFromPairs key pairs).nodes id).isSome = true
        ↔ (id = ROOT_ID ∨ ∃ i, i < pairs.length ∧ id = alignId i)) := by
  obtain ⟨h1, h2, h3, h4⟩ := alignFold_spec pairs pairs.length
  refine ⟨rfl, rfl, rfl, ?_, ?_, ?_, ?_⟩
  · simp only [buildAlignedLinearTreeFromPairs]
    by_cases hlen : pairs.length = 0
    · simp [hlen]
    · simp only [if_neg hlen]
      rw [if_pos (by omega)]
  · exact h2
  · exact h3
  · exact h4

/-- Witness for C3 at a concrete key and three concrete pairs. -/
theorem buildAligned_shape_witness :
    (buildAlignedLinearTreeFromPairs "c" exPairs).activeId
      = (if exPairs.length = 0 then ROOT_ID else alignId (exPairs.length - 1)) ∧
    (1 < exPairs.length ∧
      lookupA (buildAlignedLinearTreeFromPairs "c" exPairs).nodes (alignId 1)
        = some (alignNodeSpec exPairs 1 exPairs.length)) :=
  ⟨(buildAligned_shape "c" exPairs).2.2.2.1,
   by decide, (buildAligned_shape "c" exPairs).2.2.2.2.2.1 1 (by decide)⟩

/-! ## C2: reconciler contract -/

theorem mkNodeId_ne_of_idx_ne {rnds : Nat → String} {i j : Nat} (h : i ≠ j) :
    mkNodeId i (rnds i) ≠ mkNodeId j (rnds j) :=
  fun e => h (mkNodeId_idx_inj e)

theorem appendStep_eq (rnds : Nat → String) (pairs : List Pair) (b k : Nat) (hk : 1 ≤ k)
    (S : TreeState) (P : TreeNode)
    (hact : S.activeId = mkNodeId (b + k - 1) (rnds (b + k - 1)))
    (hlook : lookupA S.nodes (mkNodeId (b + k - 1) (rnds (b + k - 1)))
      = some (chainNodeSpec rnds pairs b P (b + k - 1) (b + k))) :
    appendUnderActive S (pairs.getD (b + k) dfltPair) (b + k) (rnds (b + k))
      = { S with
          activeId := mkNodeId (b + k) (rnds (b + k)),
          seenLinearCount := b + k + 1,
          nodes := insertJS
            (insertJS S.nodes (mkNodeId (b + k) (rnds (b + k)))
              (chainNodeSpec rnds pairs b P (b + k) (b + k + 1)))
            (mkNodeId (b + k - 1) (rnds (b + k - 1)))
            (chainNodeSpec rnds pairs b P (b + k - 1) (b + k + 1)) } := by
  have hres : resolveAppendParent S = chainNodeSpec rnds pairs b P (b + k - 1) (b + k) := by
    unfold resolveAppendParent
    rw [hact, hlook]
  have hprev_ne : mkNodeId (b + k - 1) (rnds (b + k - 1)) ≠ mkNodeId (b + k) (rnds (b + k)) :=
    mkNodeId_ne_of_idx_ne (by omega)
  have hnode :
      ({ id := mkNodeId (b + k) (rnds (b + k)),
         parentId := (chainNodeSpec rnds pairs b P (b + k - 1) (b + k)).id,
         children := [],
         depth := (chainNodeSpec rnds pairs b P (b + k - 1) (b + k)).depth + 1,
         linearIndex := ((b + k : Nat) : Int),
         summary := makeSummaryFromUserText (pairs.getD (b + k) dfltPair).userText 20,
         userHtml := (pairs.getD (b + k) dfltPair).userHtml,
         assistantHtml := (pairs.getD (b + k) dfltPair).assistantHtml } : TreeNode)
        = chainNodeSpec rnds pairs b P (b + k) (b + k + 1) := by
    simp only [chainNodeSpec]
    rw [if_neg (show ¬ (b + k = b) by omega), if_pos (show b + k = b + k + 1 - 1 by omega)]
    congr 1
    omega
  have hupd :
      ({ chainNodeSpec rnds pairs b P (b + k - 1) (b + k) with
          children := (chainNodeSpec rnds pairs b P (b + k - 1) (b + k)).children
            ++ [mkNodeId (b + k) (rnds (b + k))] } : TreeNode)
        = chainNodeSpec rnds pairs b P (b + k - 1) (b + k + 1) := by
    simp only [chainNodeSpec]
    rw [if_neg (show ¬ (b + k - 1 = b + k + 1 - 1) by omega)]
    simp [show b + k - 1 + 1 = b + k from by omega]
  unfold appendUnderActive
  simp only []
  rw [hres]
  rw [hnode]
  simp only [hupd]
  rw [show (chainNodeSpec rnds pairs b P (b + k - 1) (b + k)).id
      = mkNodeId (b + k - 1) (rnds (b + k - 1)) from rfl]

theorem appendStep_base_eq (rnds : Nat → String) (pairs : List Pair) (b : Nat)
    (st : TreeState) :
    appendUnderActive st (pairs.getD b dfltPair) b (rnds b)
      = { st with
          activeId := mkNodeId b (rnds b),
          seenLinearCount := b + 1,
          nodes := insertJS
            (insertJS st.nodes (mkNodeId b (rnds b))
              (chainNodeSpec rnds pairs b (resolveAppendParent st) b (b + 1)))
            (resolveAppendParent st).id
            { resolveAppendParent st with
                children := (resolveAppendParent st).children ++ [mkNodeId b (rnds b)] } } := by
  have hnode :
      ({ id := mkNodeId b (rnds b),
         parentId := (resolveAppendParent st).id,
         children := [],
         depth := (resolveAppendParent st).depth + 1,
         linearIndex := ((b : Nat) : Int),
         summary := makeSummaryFromUserText (pairs.getD b dfltPair).userText 20,
         userHtml := (pairs.getD b dfltPair).userHtml,
         assistantHtml := (pairs.getD b dfltPair).assistantHtml } : TreeNode)
        = chainNodeSpec rnds pairs b (resolveAppendParent st) b (b + 1) := by
    simp only [chainNodeSpec]
    rw [if_pos (show b = b + 1 - 1 by omega)]
    simp [show b - b = 0 from by omega]
  unfold appendUnderActive
  simp only []
  rw [hnode]

theorem reconcileFoldFrom_spec (rnds : Nat → String) (pairs : List Pair) (st : TreeState)
    (hroot : (lookupA st.nodes ROOT_ID).isSome = true) (hid : idOk st.nodes) (b : Nat) :
    ∀ (k : Nat), 1 ≤ k →
    (∀ i, b ≤ i → i < b + k → lookupA st.nodes (mkNodeId i (rnds i)) = none) →
    (reconcileFoldFrom rnds pairs st b k).seenLinearCount = b + k ∧
    (reconcileFoldFrom rnds pairs st b k).activeId = mkNodeId (b + k - 1) (rnds (b + k - 1)) ∧
    lookupA (reconcileFoldFrom rnds pairs st b k).nodes (resolveAppendParent st).id
      = some { resolveAppendParent st with
          children := (resolveAppendParent st).children ++ [mkNodeId b (rnds b)] } ∧
    (∀ i, b ≤ i → i < b + k →
      lookupA (reconcileFoldFrom rnds pairs st b k).nodes (mkNodeId i (rnds i))
        = some (chainNodeSpec rnds pairs b (resolveAppendParent st) i (b + k))) ∧
    (∀ id, id ≠ (resolveAppendParent st).id →
      (∀ i, b ≤ i → i < b + k → id ≠ mkNodeId i (rnds i)) →
      lookupA (reconcileFoldFrom rnds pairs st b k).nodes id = lookupA st.nodes id) ∧
    (reconcileFoldFrom rnds pairs st b k).convoKey = st.convoKey ∧
    (reconcileFoldFrom rnds pairs st b k).collapsedIds = st.collapsedIds := by
  have hPkey : lookupA st.nodes (resolveAppendParent st).id = some (resolveAppendParent st) :=
    resolveAppendParent_key hroot hid
  intro k
  induction k with
  | zero => omega
  | succ k ih =>
    intro _ hfresh
    have hPne : ∀ j, b ≤ j → j < b + (k + 1) →
        (resolveAppendParent st).id ≠ mkNodeId j (rnds j) := by
      intro j hj1 hj2 e
      rw [e, hfresh j hj1 hj2] at hPkey
      exact Option.noConfusion hPkey
    by_cases hk0 : k = 0
    · subst hk0
      have hone : reconcileFoldFrom rnds pairs st b 1
          = appendUnderActive st (pairs.getD b dfltPair) b (rnds b) := by
        unfold reconcileFoldFrom
        rfl
      rw [hone, appendStep_base_eq]
      have hbne : mkNodeId b (rnds b) ≠ (resolveAppendParent st).id :=
        fun e => hPne b (by omega) (by omega) e.symm
      refine ⟨rfl, by simp, ?_, ?_, ?_, rfl, rfl⟩
      · rw [lookupA_insertJS_self]
      · intro i hi1 hi2
        have hib : i = b := by omega
        subst hib
        rw [lookupA_insertJS_ne _ _ _ _ hbne, lookupA_insertJS_self]
      · intro id hidP hidc
        rw [lookupA_insertJS_ne _ _ _ _ hidP,
          lookupA_insertJS_ne _ _ _ _ (hidc b (by omega) (by omega))]
    · have hk1 : 1 ≤ k := by omega
      have hfresh' : ∀ i, b ≤ i → i < b + k → lookupA st.nodes (mkNodeId i (rnds i)) = none :=
        fun i h1 h2 => hfresh i h1 (by omega)
      obtain ⟨ih1, ih2, ih3, ih4, ih5, ih6, ih7⟩ := ih hk1 hfresh'
      have hsplit : reconcileFoldFrom rnds pairs st b (k + 1)
          = appendUnderActive (reconcileFoldFrom rnds pairs st b k)
              (pairs.getD (b + k) dfltPair) (b + k) (rnds (b + k)) := by
        unfold reconcileFoldFrom
        rw [List.range'_concat, List.foldl_append, List.foldl_cons, List.foldl_nil, one_mul]
      have hstep := appendStep_eq rnds pairs b k hk1 (reconcileFoldFrom rnds pairs st b k)
        (resolveAppendParent st) ih2 (ih4 (b + k - 1) (by omega) (by omega))
      rw [hsplit, hstep]
      have hprev_ne_new :
          mkNodeId (b + k - 1) (rnds (b + k - 1)) ≠ mkNodeId (b + k) (rnds (b + k)) :=
        mkNodeId_ne_of_idx_ne (by omega)
      refine ⟨by simp; omega, ?_, ?_, ?_, ?_, ih6, ih7⟩
      · rw [show b + (k + 1) - 1 = b + k from by omega]
      · have h1 : (resolveAppendParent st).id ≠ mkNodeId (b + k - 1) (rnds (b + k - 1)) :=
          hPne (b + k - 1) (by omega) (by omega)
        have h2 : (resolveAppendParent st).id ≠ mkNodeId (b + k) (rnds (b + k)) :=
          hPne (b + k) (by omega) (by omega)
        rw [lookupA_insertJS_ne _ _ _ _ h1, lookupA_insertJS_ne _ _ _ _ h2]
        exact ih3
      · intro i hi1 hi2
        by_cases hik : i = b + k
        · subst hik
          rw [lookupA_insertJS_ne _ _ _ _ (mkNodeId_ne_of_idx_ne (by omega)),
            lookupA_insertJS_self]
          rw [show b + (k + 1) = b + k + 1 from by omega]
        · by_cases hikm : i = b + k - 1
          · subst hikm
            rw [lookupA_insertJS_self]
            rw [show b + (k + 1) = b + k + 1 from by omega]
          · have hne1 : mkNodeId i (rnds i) ≠ mkNodeId (b + k - 1) (rnds (b + k - 1)) :=
              mkNodeId_ne_of_idx_ne (by omega)
            have hne2 : mkNodeId i (rnds i) ≠ mkNodeId (b + k) (rnds (b + k)) :=
              mkNodeId_ne_of_idx_ne (by omega)
            rw [lookupA_insertJS_ne _ _ _ _ hne1, lookupA_insertJS_ne _ _ _ _ hne2,
              ih4 i hi1 (by omega)]
            have hspec : chainNodeSpec rnds pairs b (resolveAppendParent st) i (b + k)
                = chainNodeSpec rnds pairs b (resolveAppendParent st) i (b + (k + 1)) := by
              simp only [chainNodeSpec]
              rw [if_neg (show ¬ (i = b + k - 1) from hikm),
                if_neg (show ¬ (i = b + (k + 1) - 1) by omega)]
            rw [hspec]
      · intro id hidP hidc
        rw [lookupA_insertJS_ne _ _ _ _ (hidc (b + k - 1) (by omega) (by omega)),
          lookupA_insertJS_ne _ _ _ _ (hidc (b + k) (by omega) (by omega))]
        exact ih5 id hidP (fun i h1 h2 => hidc i h1 (by omega))

/-- C2: whenever the extractor reports more pairs than seenLinearCount, the
    reconcile pass appends, for each unseen index i, one new node (its id was
    unbound before) with linearIndex i and summary derived from the pair's
    user text; the first is appended as the last child of the node resolved
    from activeId (root fallback), each next one as the sole child of the
    previously appended node, the final appended node becomes activeId, and
    seenLinearCount ends at pairs.length. -/
theorem reconcile_contract (st : TreeState) (pairs : List Pair) (rnds : Nat → String)
    (hw : wfB st = true)
    (hlen : st.seenLinearCount < pairs.length)
    (hfresh : ∀ i, st.seenLinearCount ≤ i → i < pairs.length →
      lookupA st.nodes (mkNodeId i (rnds i)) = none) :
    (reconcile rnds st pairs).seenLinearCount = pairs.length ∧
    (reconcile rnds st pairs).activeId
      = mkNodeId (pairs.length - 1) (rnds (pairs.length - 1)) ∧
    lookupA (reconcile rnds st pairs).nodes (resolveAppendParent st).id
      = some { resolveAppendParent st with
          children := (resolveAppendParent st).children
            ++ [mkNodeId st.seenLinearCount (rnds st.seenLinearCount)] } ∧
    (∀ i, st.seenLinearCount ≤ i → i < pairs.length →
      lookupA st.nodes (mkNodeId i (rnds i)) = none ∧
      lookupA (reconcile rnds st pairs).nodes (mkNodeId i (rnds i))
        = some (chainNodeSpec rnds pairs st.seenLinearCount
            (resolveAppendParent st) i pairs.length)) := by
  have hroot : (lookupA st.nodes ROOT_ID).isSome = true := by
    obtain ⟨r, hr, _, _⟩ := wf_root hw
    rw [hr]
    rfl
  have hid := idOk_of_wf hw
  have hrec : reconcile rnds st pairs
      = reconcileFoldFrom rnds pairs st st.seenLinearCount
          (pairs.length - st.seenLinearCount) := by
    unfold reconcile reconcileFoldFrom
    rw [if_neg (by omega)]
  have hk : 1 ≤ pairs.length - st.seenLinearCount := by omega
  have hbk : st.seenLinearCount + (pairs.length - st.seenLinearCount) = pairs.length := by
    omega
  obtain ⟨h1, h2, h3, h4, h5, h6, h7⟩ :=
    reconcileFoldFrom_spec rnds pairs st hroot hid st.seenLinearCount
      (pairs.length - st.seenLinearCount) hk
      (fun i hi1 hi2 => hfresh i hi1 (by omega))
  rw [hrec]
  refine ⟨by rw [h1, hbk], by rw [h2, hbk], h3, ?_⟩
  intro i hi1 hi2
  refine ⟨hfresh i hi1 hi2, ?_⟩
  have hi4 := h4 i hi1 (by omega)
  rw [hbk] at hi4
  exact hi4

/-- Witness for C2: reconciling three pairs into a fresh tree. -/
theorem reconcile_contract_witness :
    wfB (freshTree "c") = true ∧
    (freshTree "c").seenLinearCount < exPairs.length ∧
    (∀ i, (freshTree "c").seenLinearCount ≤ i → i < exPairs.length →
      lookupA (freshTree "c").nodes (mkNodeId i (exRnds i)) = none) ∧
    ((reconcile exRnds (freshTree "c") exPairs).seenLinearCount = exPairs.length ∧
    (reconcile exRnds (freshTree "c") exPairs).activeId
      = mkNodeId (exPairs.length - 1) (exRnds (exPairs.length - 1)) ∧
    lookupA (reconcile exRnds (freshTree "c") exPairs).nodes
        (resolveAppendParent (freshTree "c")).id
      = some { resolveAppendParent (freshTree "c") with
          children := (resolveAppendParent (freshTree "c")).children
            ++ [mkNodeId (freshTree "c").seenLinearCount
                  (exRnds (freshTree "c").seenLinearCount)] } ∧
    (∀ i, (freshTree "c").seenLinearCount ≤ i → i < exPairs.length →
      lookupA (freshTree "c").nodes (mkNodeId i (exRnds i)) = none ∧
      lookupA (reconcile exRnds (freshTree "c") exPairs).nodes (mkNodeId i (exRnds i))
        = some (chainNodeSpec exRnds exPairs (freshTree "c").seenLinearCount
            (resolveAppendParent (freshTree "c")) i exPairs.length))) :=
  ⟨by decide, by decide,
   by
    intro i _ hi
    have h3 : i < 3 := hi
    interval_cases i <;> decide,
   reconcile_contract (freshTree "c") exPairs exRnds (by decide) (by decide)
     (by
      intro i _ hi
      have h3 : i < 3 := hi
      interval_cases i <;> decide)⟩

/-! ## C4: focus visibility -/

/-- C4 counterexample: in exBranchy the root-to-active path is a, x and the
    active node x has no children, yet after the Focus transform the
    visibility-filtered flatten listing is a, x, y, b: the off-path siblings
    y and b stay visible, contradicting the claim that everything outside the
    path plus the active node's direct children is hidden. -/
theorem focus_visibility_cex :
    (lookupA exBranchy.nodes exBranchy.activeId).isSome = true ∧
    (pathToRoot exBranchy).map (fun x => x.id) = ["a", "x"] ∧
    (match lookupA exBranchy.nodes "x" with
      | some n => n.children
      | none => ["?"]) = [] ∧
    ((flattenTree (collapseAllOtherNodes exBranchy)).filter
        (fun n => !(isHiddenByCollapsed (collapseAllOtherNodes exBranchy) n.id))).map
          (fun n => n.id)
      = ["a", "x", "y", "b"] ∧
    isHiddenByCollapsed (collapseAllOtherNodes exBranchy) "b" = false ∧
    ("b" ∉ ["a", "x"]) ∧ ("y" ∉ ["a", "x"]) := by decide

theorem nodup_subset_length {α : Type} [DecidableEq α] {l1 l2 : List α}
    (h1 : l1.Nodup) (hsub : ∀ x ∈ l1, x ∈ l2) : l1.length ≤ l2.length := by
  induction l1 generalizing l2 with
  | nil => simp
  | cons a t ih =>
    simp only [List.nodup_cons] at h1
    have ha : a ∈ l2 := hsub a (List.mem_cons_self _ _)
    have hsub' : ∀ x ∈ t, x ∈ l2.erase a := by
      intro x hx
      have hxa : x ≠ a := fun e => h1.1 (e ▸ hx)
      exact (List.mem_erase_of_ne hxa).mpr (hsub x (List.mem_cons_of_mem _ hx))
    have := ih h1.2 hsub'
    have hlen : (l2.erase a).length = l2.length - 1 := List.length_erase_of_mem ha
    have hpos : 1 ≤ l2.length := List.length_pos_of_mem ha
    simp only [List.length_cons]
    omega

theorem chain_snoc {α : Type} {r : α → α → Prop} :
    ∀ (l : List α) (a b : α), List.Chain r a l →
      (∀ z, (a :: l).getLast? = some z → r z b) → List.Chain r a (l ++ [b]) := by
  intro l
  induction l with
  | nil =>
    intro a b _ hz
    exact List.Chain.cons (hz a rfl) List.Chain.nil
  | cons c t ih =>
    intro a b hch hz
    cases hch with
    | cons hr hch =>
      refine List.Chain.cons hr (ih c b hch ?_)
      intro z hzl
      apply hz
      rw [List.getLast?_cons_cons]
      exact hzl

theorem chain_zip_pairs {α : Type} {r : α → α → Prop} :
    ∀ (l : List α) (a : α), List.Chain r a l →
      ∀ pq ∈ (a :: l).zip l, r pq.1 pq.2 := by
  intro l
  induction l with
  | nil =>
    intro a _ pq hpq
    simp [List.zip] at hpq
  | cons b t ih =>
    intro a hch pq hpq
    cases hch with
    | cons hr hch =>
      rcases List.mem_cons.mp hpq with rfl | hpq
      · exact hr
      · exact ih b hch pq hpq

theorem mem_zip_or_last {α : Type} :
    ∀ (l : List α) (x : α), x ∈ l →
      (∃ y, (x, y) ∈ l.zip l.tail) ∨ l.getLast? = some x := by
  intro l
  induction l with
  | nil => intro x hx; simp at hx
  | cons a t ih =>
    intro x hx
    cases t with
    | nil =>
      simp only [List.mem_singleton] at hx
      subst hx
      exact Or.inr rfl
    | cons b u =>
      rcases List.mem_cons.mp hx with rfl | hx
      · exact Or.inl ⟨b, List.mem_cons_self _ _⟩
      · rcases ih x hx with ⟨y, hy⟩ | hlast
        · exact Or.inl ⟨y, List.mem_cons_of_mem _ hy⟩
        · right
          rw [List.getLast?_cons_cons]
          exact hlast

theorem zip_tail_fun {l : List String} (hnd : l.Nodup) :
    ∀ {x y z : String}, (x, y) ∈ l.zip l.tail → (x, z) ∈ l.zip l.tail → y = z := by
  induction l with
  | nil => intro x y z h1 _; simp at h1
  | cons a t ih =>
    intro x y z h1 h2
    cases t with
    | nil => simp at h1
    | cons b u =>
      simp only [List.tail_cons] at h1 h2
      rw [List.zip_cons_cons] at h1 h2
      have hnd' := List.nodup_cons.mp hnd
      rcases List.mem_cons.mp h1 with he1 | h1 <;>
        rcases List.mem_cons.mp h2 with he2 | h2
      · rw [Prod.mk.injEq] at he1 he2
        rw [he1.2, he2.2]
      · exfalso
        rw [Prod.mk.injEq] at he1
        have := (List.of_mem_zip h2).1
        exact hnd'.1 (he1.1 ▸ this)
      · exfalso
        rw [Prod.mk.injEq] at he2
        have := (List.of_mem_zip h1).1
        exact hnd'.1 (he2.1 ▸ this)
      · exact ih hnd'.2 h1 h2

theorem mem_tail_zip {l : List String} {x : String} (hx : x ∈ l.tail) :
    ∃ s, (s, x) ∈ l.zip l.tail := by
  induction l with
  | nil => simp at hx
  | cons a t ih =>
    simp only [List.tail_cons] at hx
    cases t with
    | nil => simp at hx
    | cons b u =>
      rcases List.mem_cons.mp hx with rfl | hx
      · exact ⟨a, by rw [List.tail_cons, List.zip_cons_cons]; exact List.mem_cons_self _ _⟩
      · obtain ⟨s, hs⟩ := ih hx
        refine ⟨s, ?_⟩
        rw [List.tail_cons, List.zip_cons_cons]
        exact List.mem_cons_of_mem _ hs

theorem lookupA_foldl_insTrue_skip (L : List String) (s : String) :
    ∀ (acc : List (String × Bool)) (a : String),
      lookupA (L.foldl (fun ac c => if c = s then ac else insertJS ac c true) acc) a
        = if a ∈ L ∧ a ≠ s then some true else lookupA acc a := by
  induction L with
  | nil => intro acc a; simp
  | cons c L ih =>
    intro acc a
    rw [List.foldl_cons, ih]
    by_cases hm : a ∈ L ∧ a ≠ s
    · rw [if_pos hm, if_pos ⟨List.mem_cons_of_mem _ hm.1, hm.2⟩]
    · rw [if_neg hm]
      by_cases hcs : c = s
      · rw [if_pos hcs]
        by_cases hma : a ∈ c :: L ∧ a ≠ s
        · exfalso
          rcases List.mem_cons.mp hma.1 with rfl | hmem
          · exact hma.2 hcs
          · exact hm ⟨hmem, hma.2⟩
        · rw [if_neg hma]
      · rw [if_neg hcs]
        by_cases hac : a = c
        · subst hac
          rw [if_pos ⟨List.mem_cons_self _ _, hcs⟩, lookupA_insertJS_self]
        · rw [lookupA_insertJS_ne _ _ _ _ hac]
          by_cases hma : a ∈ c :: L ∧ a ≠ s
          · exfalso
            rcases List.mem_cons.mp hma.1 with rfl | hmem
            · exact hac rfl
            · exact hm ⟨hmem, hma.2⟩
          · rw [if_neg hma]

theorem lookupA_foldl_insTrue (L : List String) :
    ∀ (acc : List (String × Bool)) (a : String),
      lookupA (L.foldl (fun ac c => insertJS ac c true) acc) a
        = if a ∈ L then some true else lookupA acc a := by
  induction L with
  | nil => intro acc a; simp
  | cons c L ih =>
    intro acc a
    rw [List.foldl_cons, ih]
    by_cases hm : a ∈ L
    · rw [if_pos hm, if_pos (List.mem_cons_of_mem _ hm)]
    · rw [if_neg hm]
      by_cases hac : a = c
      · subst hac
        rw [if_pos (List.mem_cons_self _ _), lookupA_insertJS_self]
      · rw [lookupA_insertJS_ne _ _ _ _ hac]
        rw [if_neg (fun hma => (List.mem_cons.mp hma).elim (fun e => hac e) hm)]

theorem lookupA_foldl_sib (m : NodeMap) (Z : List (String × String)) :
    ∀ (acc : List (String × Bool)) (a : String),
      lookupA (Z.foldl
          (fun acc pq =>
            match lookupA m pq.1 with
            | none => acc
            | some parent =>
              if parent.children = [] then acc
              else parent.children.foldl
                (fun acc2 c => if c = pq.2 then acc2 else insertJS acc2 c true) acc)
          acc) a
        = if sibKeyB m Z a then some true else lookupA acc a := by
  induction Z with
  | nil => intro acc a; simp [sibKeyB]
  | cons pq Z ih =>
    intro acc a
    rw [List.foldl_cons, ih]
    have hsib : sibKeyB m (pq :: Z) a
        = ((childOfB m pq.1 a && a != pq.2) || sibKeyB m Z a) := by
      simp [sibKeyB]
    rw [hsib]
    by_cases hz : sibKeyB m Z a
    · rw [if_pos hz, hz, Bool.or_true, if_pos rfl]
    · rw [if_neg hz]
      rw [Bool.not_eq_true] at hz
      rw [hz, Bool.or_false]
      split
      · rename_i hp
        have hch : childOfB m pq.1 a = false := by simp [childOfB, hp]
        rw [hch]
        simp
      · rename_i parent hp
        have hch : childOfB m pq.1 a = parent.children.contains a := by
          simp [childOfB, hp]
        rw [hch]
        by_cases hemp : parent.children = []
        · rw [if_pos hemp, hemp]
          simp
        · rw [if_neg hemp, lookupA_foldl_insTrue_skip]
          by_cases hmem : a ∈ parent.children ∧ a ≠ pq.2
          · rw [if_pos hmem]
            have : (parent.children.contains a && a != pq.2) = true := by
              simp [hmem.1, hmem.2]
            rw [this, if_pos rfl]
          · rw [if_neg hmem]
            have : (parent.children.contains a && a != pq.2) = false := by
              rw [Bool.and_eq_false_iff]
              by_cases hin : a ∈ parent.children
              · right
                simp only [bne_eq_false_iff_eq]
                by_contra hne
                exact hmem ⟨hin, hne⟩
              · left
                simp [hin]
            rw [this]
            simp

theorem lookupA_focusM1 (st : TreeState) (a : String) :
    lookupA (focusM1 st) a
      = if sibKeyB st.nodes ((focusPath st).zip (focusPath st).tail) a
        then some true else none := by
  rw [focusM1, lookupA_foldl_sib]
  by_cases h : sibKeyB st.nodes ((focusPath st).zip (focusPath st).tail) a
  · rw [if_pos h, if_pos h]
  · rw [if_neg h, if_neg h]
    rfl

theorem lookupA_focusM2 (st : TreeState) (a : String) :
    lookupA (focusM2 st) a
      = if (sibKeyB st.nodes ((focusPath st).zip (focusPath st).tail) a
            || childOfB st.nodes st.activeId a)
        then some true else none := by
  rw [focusM2]
  split
  · rename_i an hact
    have hch : childOfB st.nodes st.activeId a = an.children.contains a := by
      simp [childOfB, hact]
    rw [hch]
    by_cases hemp : an.children = []
    · rw [if_pos hemp, hemp, lookupA_focusM1]
      simp
    · rw [if_neg hemp, lookupA_foldl_insTrue, lookupA_focusM1]
      by_cases hin : a ∈ an.children
      · rw [if_pos hin]
        have : an.children.contains a = true := by simpa using hin
        rw [this, Bool.or_true, if_pos rfl]
      · rw [if_neg hin]
        have : an.children.contains a = false := by simpa using hin
        rw [this, Bool.or_false]
  · rename_i hact
    have hch : childOfB st.nodes st.activeId a = false := by simp [childOfB, hact]
    rw [hch, Bool.or_false, lookupA_focusM1]

theorem collapsedIds_focus (st : TreeState) (a : String) :
    truthy (lookupA (collapseAllOtherNodes st).collapsedIds a) = collapsedKeyB st a := by
  have hcol : (collapseAllOtherNodes st).collapsedIds
      = ((focusM2 st).filter (fun p => p.1 ≠ ROOT_ID)).filter
          (fun p => p.1 ≠ st.activeId) := rfl
  rw [hcol]
  rw [lookupA_filter (focusM2 st |>.filter (fun p => p.1 ≠ ROOT_ID))
    (fun s => decide (s ≠ st.activeId)) a]
  rw [lookupA_filter (focusM2 st) (fun s => decide (s ≠ ROOT_ID)) a]
  rw [lookupA_focusM2]
  rw [collapsedKeyB]
  by_cases hr : a = ROOT_ID
  · subst hr
    simp [truthy]
  · by_cases hA : a = st.activeId
    · rw [← hA]
      simp [truthy, hr]
    · have h1 : (decide (a ≠ st.activeId)) = true := by simp [hA]
      have h2 : (decide (a ≠ ROOT_ID)) = true := by simp [hr]
      have hb1 : (a != ROOT_ID) = true := by simp [hr]
      have hb2 : (a != st.activeId) = true := by simp [hA]
      rw [h1, h2, hb1, hb2, Bool.and_true, Bool.and_true]
      cases hc : (sibKeyB st.nodes ((focusPath st).zip (focusPath st).tail) a
          || childOfB st.nodes st.activeId a) <;> simp [truthy]

theorem ancIds_root (m : NodeMap) : ∀ f, ancIds m f ROOT_ID = [] := by
  intro f
  cases f with
  | zero => rfl
  | succ f => simp [ancIds]

theorem ancStrict_root (m : NodeMap) : ∀ f, ancStrict m f ROOT_ID = [] := by
  intro f
  cases f with
  | zero => rfl
  | succ f => simp [ancStrict]

theorem ancIds_cons {m : NodeMap} {c : String} {n : TreeNode} (hc : c ≠ ROOT_ID)
    (hl : lookupA m c = some n) (f : Nat) :
    ancIds m (f + 1) c = c :: ancIds m f n.parentId := by
  rw [ancIds]
  simp [hc, hl]

theorem ancStrict_cons {m : NodeMap} {c : String} {n : TreeNode} (hc : c ≠ ROOT_ID)
    (hl : lookupA m c = some n) (f : Nat) :
    ancStrict m (f + 1) c = n.parentId :: ancStrict m f n.parentId := by
  rw [ancStrict]
  simp [hc, hl]

theorem ancIds_props {m : NodeMap} (hw : wfNodes m = true) :
    ∀ d c n, lookupA m c = some n → n.depth = d →
      (∀ f, d ≤ f → ancIds m f c = ancIds m d c) ∧
      (ancIds m d c).length = d ∧
      (∀ x ∈ ancIds m d c, ∃ nx, lookupA m x = some nx ∧ nx.depth ≤ d ∧ x ≠ ROOT_ID) ∧
      (ancIds m d c).Nodup := by
  intro d
  induction d using Nat.strong_induction_on with
  | _ d ih =>
    intro c n hl hd
    by_cases hc : c = ROOT_ID
    · subst hc
      refine ⟨fun f _ => by rw [ancIds_root, ancIds_root], ?_, ?_, ?_⟩
      · obtain ⟨r, hlr, _, hdr⟩ := wf_root hw
        rw [hl] at hlr
        have hnr : n = r := Option.some.inj hlr
        rw [ancIds_root]
        simp [← hd, hnr, hdr]
      · rw [ancIds_root]
        intro x hx
        exact absurd hx (List.not_mem_nil x)
      · rw [ancIds_root]
        exact List.nodup_nil
    · have hdpos : 0 < d := hd ▸ wf_depth_pos hw hl hc
      obtain ⟨q, hlq, hdq, _⟩ := (wf_entry hw hl).2.2.2.2.2 hc
      have hqd : q.depth = d - 1 := by omega
      obtain ⟨ihS, ihL, ihM, ihN⟩ := ih (d - 1) (by omega) n.parentId q hlq hqd
      have hcanon : ancIds m d c = c :: ancIds m (d - 1) n.parentId := by
        have hd1 : d = (d - 1) + 1 := by omega
        rw [hd1, ancIds_cons hc hl]
        simp
      refine ⟨?_, ?_, ?_, ?_⟩
      · intro f hf
        cases f with
        | zero => omega
        | succ f =>
          rw [ancIds_cons hc hl, hcanon, ihS f (by omega)]
      · rw [hcanon]
        simp only [List.length_cons, ihL]
        omega
      · rw [hcanon]
        intro x hx
        rcases List.mem_cons.mp hx with rfl | hx
        · exact ⟨n, hl, by omega, hc⟩
        · obtain ⟨nx, hnx, hnxd, hnxr⟩ := ihM x hx
          exact ⟨nx, hnx, by omega, hnxr⟩
      · rw [hcanon, List.nodup_cons]
        refine ⟨?_, ihN⟩
        intro hmem
        obtain ⟨nx, hnx, hnxd, _⟩ := ihM c hmem
        rw [hl] at hnx
        have := Option.some.inj hnx
        rw [← this] at hnxd
        omega

theorem key_mem_of_lookupA {α : Type} {m : List (String × α)} {k : String} {v : α}
    (h : lookupA m k = some v) : k ∈ m.map Prod.fst :=
  List.mem_map.mpr ⟨(k, v), lookupA_mem h, rfl⟩

theorem depth_le_length {m : NodeMap} (hw : wfNodes m = true) {c : String} {n : TreeNode}
    (hl : lookupA m c = some n) : n.depth ≤ m.length := by
  obtain ⟨_, hL, hM, hN⟩ := ancIds_props hw n.depth c n hl rfl
  have hsub : ∀ x ∈ ancIds m n.depth c, x ∈ m.map Prod.fst := by
    intro x hx
    obtain ⟨nx, hnx, _, _⟩ := hM x hx
    exact key_mem_of_lookupA hnx
  have := nodup_subset_length hN hsub
  rw [hL, List.length_map] at this
  exact this

theorem ancStrict_eq_tail {m : NodeMap} (hw : wfNodes m = true) :
    ∀ d c n, lookupA m c = some n → n.depth = d → c ≠ ROOT_ID →
      ∀ f, d ≤ f → ancStrict m f c = (ancIds m f c).tail ++ [ROOT_ID] := by
  intro d
  induction d using Nat.strong_induction_on with
  | _ d ih =>
    intro c n hl hd hc f hf
    have hdpos : 0 < d := hd ▸ wf_depth_pos hw hl hc
    obtain ⟨q, hlq, hdq, _⟩ := (wf_entry hw hl).2.2.2.2.2 hc
    have hqd : q.depth = d - 1 := by omega
    cases f with
    | zero => omega
    | succ f =>
      rw [ancStrict_cons hc hl, ancIds_cons hc hl, List.tail_cons]
      by_cases hq : n.parentId = ROOT_ID
      · rw [hq, ancStrict_root, ancIds_root]
        rfl
      · have hqdpos : 0 < q.depth := wf_depth_pos hw hlq hq
        rw [ih (d - 1) (by omega) n.parentId q hlq hqd hq f (by omega)]
        cases f with
        | zero => omega
        | succ f2 =>
          rw [ancIds_cons hq hlq, List.tail_cons]
          rfl

theorem ancStrict_stable {m : NodeMap} (hw : wfNodes m = true) {c : String} {n : TreeNode}
    (hl : lookupA m c = some n) (f g : Nat) (hf : n.depth ≤ f) (hg : n.depth ≤ g) :
    ancStrict m f c = ancStrict m g c := by
  by_cases hc : c = ROOT_ID
  · subst hc
    rw [ancStrict_root, ancStrict_root]
  · rw [ancStrict_eq_tail hw n.depth c n hl rfl hc f hf,
      ancStrict_eq_tail hw n.depth c n hl rfl hc g hg,
      (ancIds_props hw n.depth c n hl rfl).1 f hf,
      (ancIds_props hw n.depth c n hl rfl).1 g hg]

theorem ancChain {m : NodeMap} (hw : wfNodes m = true) :
    ∀ d c n, lookupA m c = some n → n.depth = d → ∀ f, d ≤ f →
      List.Chain (fun s t => ∃ tn, lookupA m t = some tn ∧ tn.parentId = s)
        ROOT_ID ((ancIds m f c).reverse) := by
  intro d
  induction d using Nat.strong_induction_on with
  | _ d ih =>
    intro c n hl hd f hf
    by_cases hc : c = ROOT_ID
    · subst hc
      rw [ancIds_root]
      exact List.Chain.nil
    · have hdpos : 0 < d := hd ▸ wf_depth_pos hw hl hc
      obtain ⟨q, hlq, hdq, _⟩ := (wf_entry hw hl).2.2.2.2.2 hc
      have hqd : q.depth = d - 1 := by omega
      cases f with
      | zero => omega
      | succ f =>
        rw [ancIds_cons hc hl, List.reverse_cons]
        apply chain_snoc _ _ _ (ih (d - 1) (by omega) n.parentId q hlq hqd f (by omega))
        intro z hz
        by_cases hq : n.parentId = ROOT_ID
        · rw [hq, ancIds_root] at hz
          simp only [List.reverse_nil, List.getLast?_singleton, Option.some.injEq] at hz
          rw [← hz]
          exact ⟨n, hl, hq⟩
        · have hqdpos : 0 < q.depth := wf_depth_pos hw hlq hq
          cases f with
          | zero => omega
          | succ f2 =>
            rw [ancIds_cons hq hlq, List.reverse_cons,
              show ROOT_ID :: ((ancIds m f2 q.parentId).reverse ++ [n.parentId])
                = (ROOT_ID :: (ancIds m f2 q.parentId).reverse) ++ [n.parentId] from rfl,
              List.getLast?_concat] at hz
            rw [← Option.some.inj hz]
            exact ⟨n, hl, rfl⟩

theorem ancClosure {m : NodeMap} (hw : wfNodes m = true) :
    ∀ d c n, lookupA m c = some n → n.depth = d → ∀ f, d ≤ f →
      ∀ x ∈ ancIds m f c, ∀ g nx, lookupA m x = some nx → nx.depth ≤ g →
        ancStrict m g x ⊆ ROOT_ID :: ancIds m f c := by
  intro d
  induction d using Nat.strong_induction_on with
  | _ d ih =>
    intro c n hl hd f hf x hx g nx hnx hg
    by_cases hc : c = ROOT_ID
    · subst hc
      rw [ancIds_root] at hx
      exact absurd hx (List.not_mem_nil x)
    · have hdpos : 0 < d := hd ▸ wf_depth_pos hw hl hc
      obtain ⟨q, hlq, hdq, _⟩ := (wf_entry hw hl).2.2.2.2.2 hc
      have hqd : q.depth = d - 1 := by omega
      cases f with
      | zero => omega
      | succ f =>
        rw [ancIds_cons hc hl] at hx ⊢
        rcases List.mem_cons.mp hx with rfl | hx
        · rw [hl] at hnx
          have hnnx : n = nx := Option.some.inj hnx
          have hdg : d ≤ g := by rw [← hd, hnnx]; exact hg
          have hstab : ancIds m f n.parentId = ancIds m (d - 1) n.parentId := by
            have h5 := (ancIds_props hw q.depth n.parentId q hlq rfl).1 f (by omega)
            rw [hqd] at h5
            exact h5
          have hcanon : ancIds m g x = x :: ancIds m (d - 1) n.parentId := by
            rw [(ancIds_props hw d x n hl hd).1 g hdg]
            have hd1 : d = (d - 1) + 1 := by omega
            rw [hd1, ancIds_cons hc hl]
            simp
          rw [ancStrict_eq_tail hw d x n hl hd hc g hdg, hcanon, List.tail_cons, hstab]
          intro y hy
          rcases List.mem_append.mp hy with hy | hy
          · exact List.mem_cons_of_mem _ (List.mem_cons_of_mem _ hy)
          · rw [List.mem_singleton.mp hy]
            exact List.mem_cons_self _ _
        · intro y hy
          have := ih (d - 1) (by omega) n.parentId q hlq hqd f (by omega) x hx g nx hnx hg hy
          rcases List.mem_cons.mp this with rfl | hmem
          · exact List.mem_cons_self _ _
          · exact List.mem_cons_of_mem _ (List.mem_cons_of_mem _ hmem)

theorem walkUpAux_some (st2 : TreeState) (f : Nat) (guard : List String) (c : String) :
    walkUpAux st2 (f + 1) guard (some c)
      = if c = "" ∨ c = ROOT_ID ∨ c ∈ guard then []
        else c :: walkUpAux st2 f (c :: guard)
          ((lookupA st2.nodes c).map (fun n => n.parentId)) := rfl

theorem pathToRootAux_succ (st2 : TreeState) (f : Nat) (guard : List String) (c : String) :
    pathToRootAux st2 (f + 1) guard c
      = if c = "" ∨ c = ROOT_ID ∨ c ∈ guard then []
        else match lookupA st2.nodes c with
          | none => []
          | some cur => cur :: pathToRootAux st2 f (c :: guard) cur.parentId := rfl

theorem isHiddenAux_succ (st2 : TreeState) (f : Nat) (guard : List String) (c : String) :
    isHiddenAux st2 (f + 1) guard c
      = if c = "" ∨ c = ROOT_ID ∨ c ∈ guard then false
        else match lookupA st2.nodes c with
          | none => false
          | some cur =>
            if cur.parentId ≠ "" ∧ truthy (lookupA st2.collapsedIds cur.parentId) = true
            then true
            else isHiddenAux st2 f (c :: guard) cur.parentId := rfl

theorem walkUpAux_eq_ancIds {st2 : TreeState} (hw : wfNodes st2.nodes = true) :
    ∀ d c n, lookupA st2.nodes c = some n → n.depth = d → ∀ f, d ≤ f →
      ∀ guard, (∀ g ∈ guard, ∃ ng, lookupA st2.nodes g = some ng ∧ d < ng.depth) →
        walkUpAux st2 f guard (some c) = ancIds st2.nodes f c := by
  intro d
  induction d using Nat.strong_induction_on with
  | _ d ih =>
    intro c n hl hd f hf guard hguard
    by_cases hc : c = ROOT_ID
    · subst hc
      rw [ancIds_root]
      cases f with
      | zero => rfl
      | succ f =>
        rw [walkUpAux_some, if_pos (Or.inr (Or.inl rfl))]
    · have hdpos : 0 < d := hd ▸ wf_depth_pos hw hl hc
      obtain ⟨q, hlq, hdq, _⟩ := (wf_entry hw hl).2.2.2.2.2 hc
      have hqd : q.depth = d - 1 := by omega
      have hcne : c ≠ "" := (wf_entry hw hl).2.1
      have hcg : c ∉ guard := by
        intro hmem
        obtain ⟨ng, hng, hngd⟩ := hguard c hmem
        rw [hl] at hng
        rw [← Option.some.inj hng] at hngd
        omega
      have hcond : ¬(c = "" ∨ c = ROOT_ID ∨ c ∈ guard) := by
        push_neg
        exact ⟨hcne, hc, hcg⟩
      cases f with
      | zero => omega
      | succ f =>
        rw [ancIds_cons hc hl, walkUpAux_some, if_neg hcond, hl, Option.map_some']
        congr 1
        refine ih (d - 1) (by omega) n.parentId q hlq hqd f (by omega) (c :: guard) ?_
        intro g hg
        rcases List.mem_cons.mp hg with rfl | hg
        · exact ⟨n, hl, by omega⟩
        · obtain ⟨ng, hng, hngd⟩ := hguard g hg
          exact ⟨ng, hng, by omega⟩

theorem pathToRootAux_map_id {st2 : TreeState} (hw : wfNodes st2.nodes = true) :
    ∀ d c n, lookupA st2.nodes c = some n → n.depth = d → ∀ f, d ≤ f →
      ∀ guard, (∀ g ∈ guard, ∃ ng, lookupA st2.nodes g = some ng ∧ d < ng.depth) →
        (pathToRootAux st2 f guard c).map (fun x => x.id) = ancIds st2.nodes f c := by
  intro d
  induction d using Nat.strong_induction_on with
  | _ d ih =>
    intro c n hl hd f hf guard hguard
    by_cases hc : c = ROOT_ID
    · subst hc
      rw [ancIds_root]
      cases f with
      | zero => rfl
      | succ f =>
        rw [pathToRootAux_succ, if_pos (Or.inr (Or.inl rfl))]
        rfl
    · have hdpos : 0 < d := hd ▸ wf_depth_pos hw hl hc
      obtain ⟨q, hlq, hdq, _⟩ := (wf_entry hw hl).2.2.2.2.2 hc
      have hqd : q.depth = d - 1 := by omega
      have hcne : c ≠ "" := (wf_entry hw hl).2.1
      have hcg : c ∉ guard := by
        intro hmem
        obtain ⟨ng, hng, hngd⟩ := hguard c hmem
        rw [hl] at hng
        rw [← Option.some.inj hng] at hngd
        omega
      have hcond : ¬(c = "" ∨ c = ROOT_ID ∨ c ∈ guard) := by
        push_neg
        exact ⟨hcne, hc, hcg⟩
      cases f with
      | zero => omega
      | succ f =>
        rw [ancIds_cons hc hl, pathToRootAux_succ, if_neg hcond, hl]
        rw [List.map_cons, (wf_entry hw hl).1]
        congr 1
        refine ih (d - 1) (by omega) n.parentId q hlq hqd f (by omega) (c :: guard) ?_
        intro g hg
        rcases List.mem_cons.mp hg with rfl | hg
        · exact ⟨n, hl, by omega⟩
        · obtain ⟨ng, hng, hngd⟩ := hguard g hg
          exact ⟨ng, hng, by omega⟩

theorem isHiddenAux_eq_any {st2 : TreeState} (hw : wfNodes st2.nodes = true) :
    ∀ d c n, lookupA st2.nodes c = some n → n.depth = d → ∀ f, d ≤ f →
      ∀ guard, (∀ g ∈ guard, ∃ ng, lookupA st2.nodes g = some ng ∧ d < ng.depth) →
        isHiddenAux st2 f guard c
          = (ancStrict st2.nodes f c).any
              (fun a => truthy (lookupA st2.collapsedIds a)) := by
  intro d
  induction d using Nat.strong_induction_on with
  | _ d ih =>
    intro c n hl hd f hf guard hguard
    by_cases hc : c = ROOT_ID
    · subst hc
      rw [ancStrict_root]
      cases f with
      | zero => rfl
      | succ f =>
        rw [isHiddenAux_succ, if_pos (Or.inr (Or.inl rfl))]
        rfl
    · have hdpos : 0 < d := hd ▸ wf_depth_pos hw hl hc
      obtain ⟨q, hlq, hdq, _⟩ := (wf_entry hw hl).2.2.2.2.2 hc
      have hqd : q.depth = d - 1 := by omega
      have hcne : c ≠ "" := (wf_entry hw hl).2.1
      have hpne : n.parentId ≠ "" := (wf_entry hw hlq).2.1
      have hcg : c ∉ guard := by
        intro hmem
        obtain ⟨ng, hng, hngd⟩ := hguard c hmem
        rw [hl] at hng
        rw [← Option.some.inj hng] at hngd
        omega
      have hcond : ¬(c = "" ∨ c = ROOT_ID ∨ c ∈ guard) := by
        push_neg
        exact ⟨hcne, hc, hcg⟩
      cases f with
      | zero => omega
      | succ f =>
        rw [ancStrict_cons hc hl, isHiddenAux_succ, if_neg hcond, hl, List.any_cons]
        rw [show (match some n with
            | none => false
            | some cur =>
              if cur.parentId ≠ "" ∧ truthy (lookupA st2.collapsedIds cur.parentId) = true
              then true
              else isHiddenAux st2 f (c :: guard) cur.parentId)
          = (if n.parentId ≠ "" ∧ truthy (lookupA st2.collapsedIds n.parentId) = true
             then true
             else isHiddenAux st2 f (c :: guard) n.parentId) from rfl]
        cases ht : truthy (lookupA st2.collapsedIds n.parentId) with
        | true =>
          rw [if_pos ⟨hpne, rfl⟩, Bool.true_or]
        | false =>
          rw [if_neg (fun hcontra => Bool.false_ne_true hcontra.2), Bool.false_or]
          refine ih (d - 1) (by omega) n.parentId q hlq hqd f (by omega) (c :: guard) ?_
          intro g hg
          rcases List.mem_cons.mp hg with rfl | hg
          · exact ⟨n, hl, by omega⟩
          · obtain ⟨ng, hng, hngd⟩ := hguard g hg
            exact ⟨ng, hng, by omega⟩

theorem flattenAux_mem {st2 : TreeState} :
    ∀ {f : Nat} {id : String} {y : TreeNode}, y ∈ flattenAux st2 f id →
      ∃ k, k ≠ ROOT_ID ∧ lookupA st2.nodes k = some y := by
  intro f
  induction f with
  | zero => intro id y hy; exact absurd hy (List.not_mem_nil y)
  | succ f ihf =>
    intro id y hy
    rw [flattenAux] at hy
    split at hy
    · exact absurd hy (List.not_mem_nil y)
    · rename_i n hl
      rcases List.mem_append.mp hy with hy | hy
      · by_cases hr : id = ROOT_ID
        · rw [if_pos hr] at hy
          exact absurd hy (List.not_mem_nil y)
        · rw [if_neg hr] at hy
          exact ⟨id, hr, by rw [List.mem_singleton.mp hy]; exact hl⟩
      · rw [List.mem_flatten] at hy
        obtain ⟨l, hlm, hyl⟩ := hy
        rw [List.mem_map] at hlm
        obtain ⟨c, _, rfl⟩ := hlm
        exact ihf hyl

theorem focusPath_eq {st : TreeState} (hw : wfNodes st.nodes = true) {an : TreeNode}
    (hact : lookupA st.nodes st.activeId = some an) :
    focusPath st
      = ROOT_ID :: (ancIds st.nodes (st.nodes.length + 2) st.activeId).reverse := by
  rw [focusPath,
    walkUpAux_eq_ancIds hw an.depth st.activeId an hact rfl (st.nodes.length + 2)
      (by have := depth_le_length hw hact; omega) []
      (fun g hg => absurd hg (List.not_mem_nil g))]

theorem focusPath_getLast {st : TreeState} (hw : wfNodes st.nodes = true) {an : TreeNode}
    (hact : lookupA st.nodes st.activeId = some an) :
    (focusPath st).getLast? = some st.activeId := by
  rw [focusPath_eq hw hact]
  by_cases hA : st.activeId = ROOT_ID
  · rw [hA, ancIds_root]
    rfl
  · rw [show st.nodes.length + 2 = st.nodes.length + 1 + 1 from rfl,
      ancIds_cons hA hact, List.reverse_cons,
      show ROOT_ID :: ((ancIds st.nodes (st.nodes.length + 1) an.parentId).reverse
          ++ [st.activeId])
        = (ROOT_ID :: (ancIds st.nodes (st.nodes.length + 1) an.parentId).reverse)
          ++ [st.activeId] from rfl,
      List.getLast?_concat]

theorem focusPath_active_mem {st : TreeState} (hw : wfNodes st.nodes = true) {an : TreeNode}
    (hact : lookupA st.nodes st.activeId = some an) :
    st.activeId ∈ focusPath st := by
  rw [focusPath_eq hw hact]
  by_cases hA : st.activeId = ROOT_ID
  · rw [hA]
    exact List.mem_cons_self _ _
  · apply List.mem_cons_of_mem
    rw [List.mem_reverse,
      show st.nodes.length + 2 = st.nodes.length + 1 + 1 from rfl,
      ancIds_cons hA hact]
    exact List.mem_cons_self _ _

theorem focusPath_nodup {st : TreeState} (hw : wfNodes st.nodes = true) {an : TreeNode}
    (hact : lookupA st.nodes st.activeId = some an) :
    (focusPath st).Nodup := by
  rw [focusPath_eq hw hact, List.nodup_cons]
  obtain ⟨hS, _, hM, hN⟩ := ancIds_props hw an.depth st.activeId an hact rfl
  have hstab : ancIds st.nodes (st.nodes.length + 2) st.activeId
      = ancIds st.nodes an.depth st.activeId :=
    hS (st.nodes.length + 2) (by have := depth_le_length hw hact; omega)
  rw [hstab]
  refine ⟨?_, List.nodup_reverse.mpr hN⟩
  intro hmem
  rw [List.mem_reverse] at hmem
  obtain ⟨_, _, _, hR⟩ := hM ROOT_ID hmem
  exact hR rfl

theorem focusPath_edges {st : TreeState} (hw : wfNodes st.nodes = true) {an : TreeNode}
    (hact : lookupA st.nodes st.activeId = some an) :
    ∀ pq ∈ (focusPath st).zip (focusPath st).tail,
      ∃ tn, lookupA st.nodes pq.2 = some tn ∧ tn.parentId = pq.1 := by
  rw [focusPath_eq hw hact]
  intro pq hpq
  exact chain_zip_pairs _ _
    (ancChain hw an.depth st.activeId an hact rfl (st.nodes.length + 2)
      (by have := depth_le_length hw hact; omega))
    pq hpq

theorem path_key_not_collapsed {st : TreeState} (hw : wfNodes st.nodes = true)
    {an : TreeNode} (hact : lookupA st.nodes st.activeId = some an) :
    ∀ a ∈ focusPath st, collapsedKeyB st a = false := by
  intro a ha
  rw [collapsedKeyB]
  by_cases hr : a = ROOT_ID
  · simp [hr]
  · by_cases hA : a = st.activeId
    · simp [hA]
    · have haD : a ∈ ancIds st.nodes (st.nodes.length + 2) st.activeId := by
        rw [focusPath_eq hw hact] at ha
        rcases List.mem_cons.mp ha with rfl | ha
        · exact absurd rfl hr
        · exact List.mem_reverse.mp ha
      obtain ⟨hS, _, hM, _⟩ := ancIds_props hw an.depth st.activeId an hact rfl
      have hstab : ancIds st.nodes (st.nodes.length + 2) st.activeId
          = ancIds st.nodes an.depth st.activeId :=
        hS (st.nodes.length + 2) (by have := depth_le_length hw hact; omega)
      obtain ⟨na, hna, hnad, _⟩ := hM a (hstab ▸ haD)
      have hsib : sibKeyB st.nodes ((focusPath st).zip (focusPath st).tail) a
          = false := by
        rw [Bool.eq_false_iff]
        intro hcontra
        rw [sibKeyB, List.any_eq_true] at hcontra
        obtain ⟨pq, hpqm, hcond⟩ := hcontra
        rw [Bool.and_eq_true] at hcond
        have hnepq : a ≠ pq.2 := by simpa using hcond.2
        have hchild : ∃ pn, lookupA st.nodes pq.1 = some pn ∧ a ∈ pn.children := by
          have h6 := hcond.1
          rw [childOfB] at h6
          cases hlp : lookupA st.nodes pq.1 with
          | none => rw [hlp] at h6; exact absurd h6 (by simp)
          | some pn =>
            rw [hlp] at h6
            exact ⟨pn, rfl, by simpa using h6⟩
        obtain ⟨pn, hlpn, hapn⟩ := hchild
        obtain ⟨ch, hch, hchp⟩ := (wf_entry hw hlpn).2.2.2.2.1 a hapn
        rw [hna] at hch
        have hch' : na = ch := Option.some.inj hch
        have hin : a ∈ (focusPath st).tail := by
          rw [focusPath_eq hw hact, List.tail_cons, List.mem_reverse]
          exact haD
        obtain ⟨s, hs⟩ := mem_tail_zip hin
        obtain ⟨tn, htn, htnp⟩ := focusPath_edges hw hact (s, a) hs
        rw [hna] at htn
        have htn' : na = tn := Option.some.inj htn
        have htnp' : tn.parentId = s := htnp
        have hseq : s = pq.1 := by
          rw [← htnp', ← htn', hch']
          exact hchp
        have hs' : (pq.1, a) ∈ (focusPath st).zip (focusPath st).tail := by
          rw [← hseq]
          exact hs
        exact hnepq (zip_tail_fun (focusPath_nodup hw hact) hpqm hs').symm
      have hchildB : childOfB st.nodes st.activeId a = false := by
        rw [Bool.eq_false_iff]
        intro hcontra
        rw [childOfB, hact] at hcontra
        simp only [List.contains, List.elem_eq_mem, decide_eq_true_eq] at hcontra
        obtain ⟨ch, hch, hchp⟩ := (wf_entry hw hact).2.2.2.2.1 a hcontra
        rw [hna] at hch
        have hch' : na = ch := Option.some.inj hch
        obtain ⟨q', hlq', hdq', _⟩ := (wf_entry hw hna).2.2.2.2.2 hr
        rw [hch', hchp, hact] at hlq'
        rw [← Option.some.inj hlq'] at hdq'
        omega
      rw [hsib, hchildB]
      simp

theorem offPath_collapsed {st : TreeState} (hw : wfNodes st.nodes = true) {an : TreeNode}
    (hact : lookupA st.nodes st.activeId = some an) :
    ∀ d k n, lookupA st.nodes k = some n → n.depth = d → k ≠ ROOT_ID →
      n.parentId ∉ focusPath st →
      ∃ a ∈ ancStrict st.nodes (st.nodes.length + 2) k, collapsedKeyB st a = true := by
  intro d
  induction d using Nat.strong_induction_on with
  | _ d ih =>
    intro k n hl hd hk hpar
    have hproot : n.parentId ≠ ROOT_ID := by
      intro he
      apply hpar
      rw [he, focusPath]
      exact List.mem_cons_self _ _
    obtain ⟨q, hlq, hdq, _⟩ := (wf_entry hw hl).2.2.2.2.2 hk
    obtain ⟨r, hlr, hqdr, hpch⟩ := (wf_entry hw hlq).2.2.2.2.2 hproot
    have hanc : ancStrict st.nodes (st.nodes.length + 2) k
        = n.parentId :: ancStrict st.nodes (st.nodes.length + 1) n.parentId :=
      ancStrict_cons hk hl (st.nodes.length + 1)
    by_cases hg : q.parentId ∈ focusPath st
    · refine ⟨n.parentId, by rw [hanc]; exact List.mem_cons_self _ _, ?_⟩
      rw [collapsedKeyB]
      have hb1 : (n.parentId != ROOT_ID) = true := by simp [hproot]
      have hb2 : (n.parentId != st.activeId) = true := by
        have h7 : n.parentId ≠ st.activeId := by
          intro he
          apply hpar
          rw [he]
          exact focusPath_active_mem hw hact
        simp [h7]
      rw [hb1, hb2, Bool.and_true, Bool.and_true]
      by_cases hga : q.parentId = st.activeId
      · have hact' : lookupA st.nodes st.activeId = some r := by
          rw [← hga]
          exact hlr
        have h8 : childOfB st.nodes st.activeId n.parentId = true := by
          rw [childOfB, hact']
          simpa using hpch
        rw [h8, Bool.or_true]
      · have h9 : ∃ t, (q.parentId, t) ∈ (focusPath st).zip (focusPath st).tail := by
          rcases mem_zip_or_last (focusPath st) q.parentId hg with h | h
          · exact h
          · exfalso
            rw [focusPath_getLast hw hact] at h
            exact hga (Option.some.inj h).symm
        obtain ⟨t, ht⟩ := h9
        have hsib : sibKeyB st.nodes ((focusPath st).zip (focusPath st).tail)
            n.parentId = true := by
          rw [sibKeyB, List.any_eq_true]
          refine ⟨(q.parentId, t), ht, ?_⟩
          have hch : childOfB st.nodes q.parentId n.parentId = true := by
            rw [childOfB, hlr]
            simpa using hpch
          have hnt : n.parentId ≠ t := by
            intro he
            apply hpar
            rw [he]
            exact List.mem_of_mem_tail (List.of_mem_zip ht).2
          simp [hch, hnt]
        rw [hsib, Bool.true_or]
    · have hdpos : 0 < d := by omega
      obtain ⟨a, ham, hac⟩ :=
        ih (d - 1) (by omega) n.parentId q hlq (by omega) hproot hg
      refine ⟨a, ?_, hac⟩
      rw [hanc]
      apply List.mem_cons_of_mem
      have hst := ancStrict_stable hw hlq (st.nodes.length + 2) (st.nodes.length + 1)
        (by have := depth_le_length hw hlq; omega)
        (by have := depth_le_length hw hlq; omega)
      rw [hst] at ham
      exact ham

/-- C4 (amended): the Focus transform (collapseAllOtherNodes) only rewrites
    collapsedIds — nodes, activeId and seenLinearCount are kept — and the
    visibility-filtered flatten listing afterwards consists of exactly the
    nodes whose parent lies on the root-to-active path including the root:
    the path nodes themselves plus the direct children of every path node
    (not only the active node's children), deeper descendants hidden. -/
theorem focusOnActive_visibility (st : TreeState) (hw : wfB st = true)
    (hact : (lookupA st.nodes st.activeId).isSome = true) :
    (collapseAllOtherNodes st).nodes = st.nodes ∧
    (collapseAllOtherNodes st).activeId = st.activeId ∧
    (collapseAllOtherNodes st).seenLinearCount = st.seenLinearCount ∧
    (flattenTree (collapseAllOtherNodes st)).filter
        (fun n => !(isHiddenByCollapsed (collapseAllOtherNodes st) n.id))
      = (flattenTree (collapseAllOtherNodes st)).filter
          (fun n => n.parentId == ROOT_ID
            || ((pathToRoot st).map (fun x => x.id)).contains n.parentId) := by
  obtain ⟨an, hactv⟩ := Option.isSome_iff_exists.mp hact
  have hw' : wfNodes st.nodes = true := hw
  refine ⟨rfl, rfl, rfl, ?_⟩
  apply List.filter_congr
  intro y hy
  show (!(isHiddenByCollapsed (collapseAllOtherNodes st) y.id))
    = (y.parentId == ROOT_ID
        || ((pathToRoot st).map (fun x => x.id)).contains y.parentId)
  have hy' : y ∈ flattenAux (collapseAllOtherNodes st) (st.nodes.length + 1)
      ROOT_ID := hy
  obtain ⟨k, hkr, hky⟩ := flattenAux_mem hy'
  have hky' : lookupA st.nodes k = some y := hky
  have hyid : y.id = k := (wf_entry hw' hky').1
  have hwf2 : wfNodes (collapseAllOtherNodes st).nodes = true := hw'
  have hhid : isHiddenByCollapsed (collapseAllOtherNodes st) y.id
      = (ancStrict st.nodes (st.nodes.length + 2) k).any
          (fun a => truthy (lookupA (collapseAllOtherNodes st).collapsedIds a)) := by
    rw [hyid]
    exact isHiddenAux_eq_any hwf2 y.depth k y hky rfl (st.nodes.length + 2)
      (by have := depth_le_length hw' hky'; omega) []
      (fun g hg => absurd hg (List.not_mem_nil g))
  have hcoll : (fun a => truthy (lookupA (collapseAllOtherNodes st).collapsedIds a))
      = fun a => collapsedKeyB st a := funext (collapsedIds_focus st)
  rw [hcoll] at hhid
  have hpath : (pathToRoot st).map (fun x => x.id)
      = (ancIds st.nodes (st.nodes.length + 2) st.activeId).reverse := by
    rw [pathToRoot, List.map_reverse,
      pathToRootAux_map_id hw' an.depth st.activeId an hactv rfl (st.nodes.length + 2)
        (by have := depth_le_length hw' hactv; omega) []
        (fun g hg => absurd hg (List.not_mem_nil g))]
  rw [hhid, hpath]
  by_cases hmem : y.parentId ∈ focusPath st
  · have hanc : ancStrict st.nodes (st.nodes.length + 2) k
        = y.parentId :: ancStrict st.nodes (st.nodes.length + 1) y.parentId :=
      ancStrict_cons hkr hky' (st.nodes.length + 1)
    have hsub : ∀ a ∈ ancStrict st.nodes (st.nodes.length + 2) k,
        a ∈ focusPath st := by
      rw [hanc]
      intro a ha
      rcases List.mem_cons.mp ha with rfl | ha
      · exact hmem
      · by_cases hpr : y.parentId = ROOT_ID
        · rw [hpr, ancStrict_root] at ha
          exact absurd ha (List.not_mem_nil a)
        · have hpD : y.parentId
              ∈ ancIds st.nodes (st.nodes.length + 2) st.activeId := by
            rw [focusPath_eq hw' hactv] at hmem
            rcases List.mem_cons.mp hmem with he | hmem2
            · exact absurd he hpr
            · exact List.mem_reverse.mp hmem2
          obtain ⟨q, hlq, hdq, _⟩ := (wf_entry hw' hky').2.2.2.2.2 hkr
          have hclo := ancClosure hw' an.depth st.activeId an hactv rfl
            (st.nodes.length + 2) (by have := depth_le_length hw' hactv; omega)
            y.parentId hpD (st.nodes.length + 1) q hlq
            (by have := depth_le_length hw' hlq; omega) ha
          rw [focusPath_eq hw' hactv]
          rcases List.mem_cons.mp hclo with rfl | hclo2
          · exact List.mem_cons_self _ _
          · exact List.mem_cons_of_mem _ (List.mem_reverse.mpr hclo2)
    have hA : (ancStrict st.nodes (st.nodes.length + 2) k).any
        (fun a => collapsedKeyB st a) = false := by
      rw [Bool.eq_false_iff]
      intro hcontra
      rw [List.any_eq_true] at hcontra
      obtain ⟨a, ham, hac⟩ := hcontra
      rw [path_key_not_collapsed hw' hactv a (hsub a ham)] at hac
      exact Bool.false_ne_true hac
    rw [hA]
    have hB : (y.parentId == ROOT_ID
        || (ancIds st.nodes (st.nodes.length + 2) st.activeId).reverse.contains
            y.parentId) = true := by
      rw [focusPath_eq hw' hactv] at hmem
      rcases List.mem_cons.mp hmem with he | hmem2
      · rw [he]
        simp
      · have h12 : ((ancIds st.nodes (st.nodes.length + 2)
            st.activeId).reverse.contains y.parentId) = true := by
          simpa using hmem2
        rw [h12, Bool.or_true]
    rw [hB]
    rfl
  · obtain ⟨a, ham, hac⟩ :=
      offPath_collapsed hw' hactv y.depth k y hky' rfl hkr hmem
    have hA : (ancStrict st.nodes (st.nodes.length + 2) k).any
        (fun a => collapsedKeyB st a) = true :=
      List.any_eq_true.mpr ⟨a, ham, hac⟩
    rw [hA]
    have hpr : y.parentId ≠ ROOT_ID := by
      intro he
      apply hmem
      rw [he, focusPath]
      exact List.mem_cons_self _ _
    have hirv : y.parentId
        ∉ (ancIds st.nodes (st.nodes.length + 2) st.activeId).reverse := by
      intro hcontra
      apply hmem
      rw [focusPath_eq hw' hactv]
      exact List.mem_cons_of_mem _ hcontra
    have h10 : ((ancIds st.nodes (st.nodes.length + 2)
        st.activeId).reverse.contains y.parentId) = false := by
      simpa using hirv
    have h11 : (y.parentId == ROOT_ID) = false := by
      simpa using hpr
    rw [h10, h11]
    rfl

/-- Witness for the amended C4 theorem on the concrete branchy state. -/
theorem focusOnActive_visibility_witness :
    wfB exBranchy = true ∧
    (lookupA exBranchy.nodes exBranchy.activeId).isSome = true ∧
    ((collapseAllOtherNodes exBranchy).nodes = exBranchy.nodes ∧
      (collapseAllOtherNodes exBranchy).activeId = exBranchy.activeId ∧
      (collapseAllOtherNodes exBranchy).seenLinearCount = exBranchy.seenLinearCount ∧
      (flattenTree (collapseAllOtherNodes exBranchy)).filter
          (fun n => !(isHiddenByCollapsed (collapseAllOtherNodes exBranchy) n.id))
        = (flattenTree (collapseAllOtherNodes exBranchy)).filter
            (fun n => n.parentId == ROOT_ID
              || ((pathToRoot exBranchy).map (fun x => x.id)).contains n.parentId)) :=
  ⟨by decide, by decide, focusOnActive_visibility exBranchy (by decide) (by decide)⟩
